import Mathlib

/-!
Verification of the expo-electron orchestrator (cli.js and its siblings):
the dual-process lifecycle supervisor of the `start` workflow, the
readiness prober, the workspace-builder file-tree primitives, the
post-export HTML transform, and the packaging pipeline's staging logic.

Each section embeds the relevant JavaScript shallowly: pure functions
become Lean functions, the event-driven supervisor becomes a step
function over an explicit state record folded over an event trace, and
filesystem trees become an inductive type.
-/

set_option autoImplicit false

namespace ExpoElectron

/-! ### Process pair supervisor (cli.js, `start`)

The supervisor's mutable state consists of the flags
`isShuttingDown`, `finalized` and the liveness interval handle, plus the
two child process handles.  `alive p` probes the OS; we model the two
liveness bits directly.  Side effects of `finalizeExit` (clearing the
interval, calling `process.exit`) are recorded as counters so that
"executes its side effects exactly once" is a statement about the state.

A JS exit event delivers `number | null`; we model that as `Option Int`.
-/

structure SupState where
  expoAlive : Bool
  electronAlive : Bool
  isShuttingDown : Bool
  finalized : Bool
  livenessActive : Bool
  exitedWith : Option Int
  exitCount : Nat
  clearCount : Nat
  sigintsSent : Nat
  deriving Repr, DecidableEq

/-- Initial supervisor state: both children spawned and alive, the
liveness interval installed, nothing finalized. -/
def supInit : SupState :=
  { expoAlive := true, electronAlive := true, isShuttingDown := false,
    finalized := false, livenessActive := true, exitedWith := none,
    exitCount := 0, clearCount := 0, sigintsSent := 0 }

/-- The probe `bothGone()` — neither child's pid is alive. -/
def bothGone (s : SupState) : Bool :=
  !s.expoAlive && !s.electronAlive

/-- The function `finalizeExit(code)` — guarded by `finalized`; clears the liveness
interval if installed and calls `process.exit(typeof code === 'number' ? code : 0)`. -/
def finalizeExit (code : Option Int) (s : SupState) : SupState :=
  if s.finalized then s
  else
    { s with finalized := true,
             livenessActive := false,
             clearCount := s.clearCount + (if s.livenessActive then 1 else 0),
             exitedWith := some (code.getD 0),
             exitCount := s.exitCount + 1 }

/-- The helper `sendSigint(p)` — a `p.kill('SIGINT')` attempt (errors swallowed). -/
def sendSigint (s : SupState) : SupState :=
  { s with sigintsSent := s.sigintsSent + 1 }

/-- The function `initiateShutdown(code)` — guarded by `isShuttingDown`; signals both
children and finalizes immediately iff both are already gone. -/
def initiateShutdown (code : Option Int) (s : SupState) : SupState :=
  if s.isShuttingDown then s
  else
    let s1 := sendSigint (sendSigint { s with isShuttingDown := true })
    if bothGone s1 then finalizeExit code s1 else s1

/-- Events the supervisor can observe: OS-level child deaths (which the
liveness poll can detect before any notification), the `exit` events with
their codes, an external interrupt/terminate/hangup signal, and a tick of
the 250 ms liveness interval. -/
inductive SupEv where
  | expoDied
  | electronDied
  | expoExit (code : Option Int)
  | electronExit (code : Option Int)
  | sig
  | tick
  deriving Repr, DecidableEq

/-- One event handler dispatch, mirroring the handlers registered in
`start`.  An `exit` event arrives only once the child is dead, so the
handler first drops the liveness bit of its child. -/
def supStep (s : SupState) : SupEv → SupState
  | .expoDied => { s with expoAlive := false }
  | .electronDied => { s with electronAlive := false }
  | .expoExit c =>
      let s1 := { s with expoAlive := false }
      let s2 := if !s1.isShuttingDown then sendSigint s1 else s1
      if bothGone s2 then finalizeExit c s2 else s2
  | .electronExit c =>
      let s1 := { s with electronAlive := false }
      let s2 := if !s1.isShuttingDown then sendSigint s1 else s1
      if bothGone s2 then finalizeExit c s2 else s2
  | .sig => initiateShutdown (some 0) s
  | .tick =>
      if s.livenessActive then
        (if bothGone s then finalizeExit (some 0) s else s)
      else s

/-- Run the supervisor over a whole event trace. -/
def supRun (s : SupState) (evs : List SupEv) : SupState :=
  evs.foldl supStep s

/-- The exit status a given event would finalize with when it triggers
finalization: a child's exit code coerced through
`typeof code === 'number' ? code : 0`, and `0` for the liveness poll and
for external signals. -/
def evExitStatus : SupEv → Int
  | .expoExit c => c.getD 0
  | .electronExit c => c.getD 0
  | _ => 0

/-- The state invariant tying the `finalized` flag to the recorded side
effects: before finalization no side effect has run and the interval is
still installed; after it, each side effect ran exactly once. -/
def SupInv (s : SupState) : Prop :=
  (s.finalized = false →
    s.exitCount = 0 ∧ s.clearCount = 0 ∧ s.livenessActive = true ∧ s.exitedWith = none) ∧
  (s.finalized = true → s.exitCount = 1 ∧ s.clearCount = 1)

theorem supInv_init : SupInv supInit := by
  constructor <;> intro h <;> simp [supInit] at h ⊢

/-- The invariant `SupInv` only looks at the finalization-related fields. -/
theorem supInv_core {s t : SupState} (hfin : t.finalized = s.finalized)
    (he : t.exitCount = s.exitCount) (hc : t.clearCount = s.clearCount)
    (hl : t.livenessActive = s.livenessActive) (hw : t.exitedWith = s.exitedWith)
    (h : SupInv s) : SupInv t := by
  obtain ⟨h0, h1⟩ := h
  constructor <;> intro hx
  · rw [hfin] at hx
    obtain ⟨a, b, cc, d⟩ := h0 hx
    exact ⟨he.trans a, hc.trans b, hl.trans cc, hw.trans d⟩
  · rw [hfin] at hx
    obtain ⟨a, b⟩ := h1 hx
    exact ⟨he.trans a, hc.trans b⟩

theorem supInv_finalizeExit (c : Option Int) (s : SupState) (h : SupInv s) :
    SupInv (finalizeExit c s) := by
  by_cases hf : s.finalized
  · simpa [finalizeExit, hf] using h
  · obtain ⟨h0, _⟩ := h
    obtain ⟨he, hc, hl, _⟩ := h0 (by simpa using hf)
    constructor <;> intro hfin <;>
      simp [finalizeExit, hf, he, hc, hl] at hfin ⊢

theorem supInv_step (s : SupState) (e : SupEv) (h : SupInv s) :
    SupInv (supStep s e) := by
  cases e with
  | expoDied => exact supInv_core rfl rfl rfl rfl rfl h
  | electronDied => exact supInv_core rfl rfl rfl rfl rfl h
  | expoExit c =>
      simp only [supStep]
      split <;> split
      · exact supInv_finalizeExit _ _ (supInv_core rfl rfl rfl rfl rfl h)
      · exact supInv_core rfl rfl rfl rfl rfl h
      · exact supInv_finalizeExit _ _ (supInv_core rfl rfl rfl rfl rfl h)
      · exact supInv_core rfl rfl rfl rfl rfl h
  | electronExit c =>
      simp only [supStep]
      split <;> split
      · exact supInv_finalizeExit _ _ (supInv_core rfl rfl rfl rfl rfl h)
      · exact supInv_core rfl rfl rfl rfl rfl h
      · exact supInv_finalizeExit _ _ (supInv_core rfl rfl rfl rfl rfl h)
      · exact supInv_core rfl rfl rfl rfl rfl h
  | sig =>
      simp only [supStep, initiateShutdown]
      split
      · exact h
      · split
        · exact supInv_finalizeExit _ _ (supInv_core rfl rfl rfl rfl rfl h)
        · exact supInv_core rfl rfl rfl rfl rfl h
  | tick =>
      simp only [supStep]
      split
      · split
        · exact supInv_finalizeExit _ _ h
        · exact h
      · exact h

theorem supInv_run (s : SupState) (evs : List SupEv) (h : SupInv s) :
    SupInv (supRun s evs) := by
  induction evs generalizing s with
  | nil => exact h
  | cons e rest ih => exact ih _ (supInv_step s e h)

theorem finalizeExit_finalized (c : Option Int) (s : SupState)
    (h : s.finalized = true) : finalizeExit c s = s := by
  simp [finalizeExit, h]

/-- Once finalized, a step changes nothing but possibly the liveness
bits and the signal counter: `finalized`, `exitedWith`, `exitCount` and
`clearCount` are frozen. -/
theorem supStep_frozen (s : SupState) (e : SupEv) (h : s.finalized = true) :
    (supStep s e).finalized = true ∧
    (supStep s e).exitedWith = s.exitedWith ∧
    (supStep s e).exitCount = s.exitCount ∧
    (supStep s e).clearCount = s.clearCount := by
  cases e with
  | expoDied => exact ⟨h, rfl, rfl, rfl⟩
  | electronDied => exact ⟨h, rfl, rfl, rfl⟩
  | expoExit c =>
      simp only [supStep]
      split <;> split
      · rw [finalizeExit_finalized _ _ (by simpa [sendSigint] using h)]
        exact ⟨h, rfl, rfl, rfl⟩
      · exact ⟨h, rfl, rfl, rfl⟩
      · rw [finalizeExit_finalized _ _ (by simpa using h)]
        exact ⟨h, rfl, rfl, rfl⟩
      · exact ⟨h, rfl, rfl, rfl⟩
  | electronExit c =>
      simp only [supStep]
      split <;> split
      · rw [finalizeExit_finalized _ _ (by simpa [sendSigint] using h)]
        exact ⟨h, rfl, rfl, rfl⟩
      · exact ⟨h, rfl, rfl, rfl⟩
      · rw [finalizeExit_finalized _ _ (by simpa using h)]
        exact ⟨h, rfl, rfl, rfl⟩
      · exact ⟨h, rfl, rfl, rfl⟩
  | sig =>
      simp only [supStep, initiateShutdown]
      split
      · exact ⟨h, rfl, rfl, rfl⟩
      · split
        · rw [finalizeExit_finalized _ _ (by simpa [sendSigint] using h)]
          exact ⟨h, rfl, rfl, rfl⟩
        · exact ⟨h, rfl, rfl, rfl⟩
  | tick =>
      simp only [supStep]
      split
      · split
        · rw [finalizeExit_finalized _ _ h]
          exact ⟨h, rfl, rfl, rfl⟩
        · exact ⟨h, rfl, rfl, rfl⟩
      · exact ⟨h, rfl, rfl, rfl⟩

theorem supRun_frozen (s : SupState) (evs : List SupEv) (h : s.finalized = true) :
    (supRun s evs).finalized = true ∧
    (supRun s evs).exitedWith = s.exitedWith ∧
    (supRun s evs).exitCount = s.exitCount ∧
    (supRun s evs).clearCount = s.clearCount := by
  induction evs generalizing s with
  | nil => exact ⟨h, rfl, rfl, rfl⟩
  | cons e rest ih =>
      obtain ⟨h1, h2, h3, h4⟩ := supStep_frozen s e h
      obtain ⟨g1, g2, g3, g4⟩ := ih (supStep s e) h1
      exact ⟨g1, g2.trans h2, g3.trans h3, g4.trans h4⟩

theorem supRun_append (s : SupState) (l1 l2 : List SupEv) :
    supRun s (l1 ++ l2) = supRun (supRun s l1) l2 :=
  List.foldl_append _ _ _ _

theorem trigger_aux (c : Option Int) (sx : SupState) (b : Bool)
    (h0 : sx.finalized = false)
    (h1 : (if b then finalizeExit c sx else sx).finalized = true) :
    (if b then finalizeExit c sx else sx).exitedWith = some (c.getD 0) := by
  cases b with
  | false => simp at h1; rw [h1] at h0; exact absurd h0 (by simp)
  | true => simp only [if_true]; simp [finalizeExit, h0]

/-- When a single handler dispatch flips `finalized`, the exit status it
records is that event's status. -/
theorem supStep_trigger (s : SupState) (e : SupEv) (h0 : s.finalized = false)
    (h1 : (supStep s e).finalized = true) :
    (supStep s e).exitedWith = some (evExitStatus e) := by
  cases e with
  | expoDied => simp only [supStep] at h1; rw [h1] at h0; exact absurd h0 (by simp)
  | electronDied => simp only [supStep] at h1; rw [h1] at h0; exact absurd h0 (by simp)
  | expoExit c =>
      simp only [supStep] at h1 ⊢
      exact trigger_aux c _ _ (by split <;> exact h0) h1
  | electronExit c =>
      simp only [supStep] at h1 ⊢
      exact trigger_aux c _ _ (by split <;> exact h0) h1
  | sig =>
      simp only [supStep, initiateShutdown] at h1 ⊢
      split at h1
      case isTrue h2 => rw [if_pos h2] ; rw [h1] at h0; exact absurd h0 (by simp)
      case isFalse h2 =>
        rw [if_neg h2]
        exact trigger_aux _ _ _ h0 h1
  | tick =>
      simp only [supStep] at h1 ⊢
      split at h1
      case isTrue h2 =>
        rw [if_pos h2]
        exact trigger_aux _ _ _ h0 h1
      case isFalse h2 =>
        rw [if_neg h2]
        rw [h1] at h0; exact absurd h0 (by simp)

/-- Claim C1: over every event trace a `start` supervisor can observe
(child exits in any order with any codes, external signals, liveness
ticks), finalization's side effects — clearing the liveness interval and
calling `process.exit` — run at most once, exactly once when the
supervisor finalizes, and the recorded exit status is the status of the
event that triggered finalization: a child exit's code, or `0` when the
liveness poll (or a signal) concluded the run first. -/
theorem claim_C1_supervisor_finalization (evs : List SupEv) :
    ((supRun supInit evs).exitCount ≤ 1 ∧ (supRun supInit evs).clearCount ≤ 1) ∧
    ((supRun supInit evs).finalized = true →
        (supRun supInit evs).exitCount = 1 ∧ (supRun supInit evs).clearCount = 1) ∧
    (∀ pre e post, evs = pre ++ e :: post →
        (supRun supInit pre).finalized = false →
        (supRun supInit (pre ++ [e])).finalized = true →
        (supRun supInit evs).exitedWith = some (evExitStatus e)) := by
  obtain ⟨i0, i1⟩ := supInv_run supInit evs supInv_init
  refine ⟨?_, i1, ?_⟩
  · by_cases hf : (supRun supInit evs).finalized
    · obtain ⟨a, b⟩ := i1 hf; omega
    · obtain ⟨a, b, _, _⟩ := i0 (by simpa using hf); omega
  · intro pre e post heq hpre htrig
    have h2 : (supStep (supRun supInit pre) e).finalized = true := by
      rw [supRun_append] at htrig; exact htrig
    have h3 := supStep_trigger (supRun supInit pre) e hpre h2
    have h4 : supRun supInit evs = supRun (supStep (supRun supInit pre) e) post := by
      rw [heq, ← List.singleton_append, ← List.append_assoc, supRun_append,
        supRun_append]
      rfl
    rw [h4]
    exact ((supRun_frozen _ post h2).2.1).trans h3

theorem claim_C1_supervisor_finalization_witness :
    (supRun supInit [SupEv.expoExit (some 3)]).finalized = false ∧
    (supRun supInit [SupEv.expoExit (some 3), SupEv.electronExit (some 5)]).finalized = true ∧
    (supRun supInit [SupEv.expoExit (some 3), SupEv.electronExit (some 5)]).exitedWith
      = some (evExitStatus (SupEv.electronExit (some 5))) :=
  ⟨by decide, by decide,
    (claim_C1_supervisor_finalization
        [SupEv.expoExit (some 3), SupEv.electronExit (some 5)]).2.2
      [SupEv.expoExit (some 3)] (SupEv.electronExit (some 5)) [] rfl
      (by decide) (by decide)⟩

/-- Claim C10: `finalizeExit` coerces a non-number (`null`) exit code to
status `0`; in particular a run in which both children's exit events
deliver `null` (signal-terminated children) makes the supervisor exit
with status `0`. -/
theorem claim_C10_null_code_exits_zero (s : SupState) (h : s.finalized = false) :
    (finalizeExit none s).exitedWith = some 0 ∧
    (supRun supInit [SupEv.electronExit none, SupEv.expoExit none]).exitedWith = some 0 := by
  refine ⟨?_, by decide⟩
  simp [finalizeExit, h]

theorem claim_C10_null_code_exits_zero_witness :
    (finalizeExit none supInit).exitedWith = some 0 :=
  (claim_C10_null_code_exits_zero supInit (by decide)).1

/-! ### `start` ordering: readiness before shell spawn (cli.js `start`)

`start` spawns the web server, awaits
`Promise.race([overall, ...candidates.map(waitForUrl)])`, and only after
that promise resolves does it assign `process.env.EXPO_WEB_URL` and call
`spawnElectron(cwd, resolvedUrl)`.  We model the post-spawn control flow
as the list of externally visible actions it performs, parameterized by
the race's outcome (`none` = overall timeout, rejection path). -/

/-- JavaScript `a || b` on strings: the empty string is falsy. -/
def jsOrStr (a b : String) : String := if a = "" then b else a

/-- JavaScript `a || b` where `a` may be `undefined` (absent env var). -/
def jsOrOpt (o : Option String) (d : String) : String :=
  match o with
  | none => d
  | some s => jsOrStr s d

/-- The default `DEV_URL = process.env.EXPO_WEB_URL || 'http://localhost:19006'`. -/
def devUrl (envUrl : Option String) : String :=
  jsOrOpt envUrl "http://localhost:19006"

/-- The expression `Array.from(new Set(l))` — dedup preserving first occurrences. -/
def jsSetDedup (l : List String) : List String :=
  l.foldl (fun acc x => if x ∈ acc then acc else acc ++ [x]) []

/-- The candidate endpoints probed by `start`. -/
def candidateUrls (envUrl : Option String) : List String :=
  jsSetDedup [jsOrOpt envUrl (devUrl envUrl),
              "http://localhost:8081", "http://localhost:19006"]

/-- The `EXPO_WEB_URL` value `spawnElectron` injects:
`resolvedUrl || process.env.EXPO_WEB_URL || DEV_URL`. -/
def spawnElectronEnvUrl (resolvedUrl : Option String) (envUrl : Option String) : String :=
  jsOrOpt resolvedUrl (jsOrOpt envUrl (devUrl envUrl))

inductive StartAction where
  | spawnWeb
  | readyResolved (url : String)
  | spawnShell (envUrl : String)
  | exitWith (code : Nat)
  deriving Repr, DecidableEq

/-- The action trace of `start` after spawning the web server: on a race
rejection it exits with code 1; on success it resolves the winner `u`,
stores it into `process.env.EXPO_WEB_URL`, and spawns the shell with the
environment computed by `spawnElectron`. -/
def startTrace (envUrl : Option String) (raceWinner : Option String) : List StartAction :=
  StartAction.spawnWeb ::
    match raceWinner with
    | none => [StartAction.exitWith 1]
    | some u => [StartAction.readyResolved u,
                 StartAction.spawnShell (spawnElectronEnvUrl (some u) (some u))]

theorem jsOrOpt_ne_empty (o : Option String) (d : String) (hd : d ≠ "") :
    jsOrOpt o d ≠ "" := by
  cases o with
  | none => simpa [jsOrOpt]
  | some s =>
      by_cases hs : s = "" <;> simp [jsOrOpt, jsOrStr, hs, hd]

theorem mem_jsSetDedup (x : String) (l : List String) (h : x ∈ jsSetDedup l) :
    x ∈ l := by
  have key : ∀ (l : List String) (acc : List String),
      x ∈ l.foldl (fun acc x => if x ∈ acc then acc else acc ++ [x]) acc →
      x ∈ acc ∨ x ∈ l := by
    intro l
    induction l with
    | nil => intro acc h; exact Or.inl h
    | cons a t ih =>
        intro acc h
        rcases ih _ h with h2 | h2
        · dsimp only at h2
          by_cases ha : a ∈ acc
          · rw [if_pos ha] at h2; exact Or.inl h2
          · rw [if_neg ha] at h2
            rcases List.mem_append.mp h2 with h3 | h3
            · exact Or.inl h3
            · simp at h3; subst h3; exact Or.inr (List.mem_cons_self _ _)
        · exact Or.inr (List.mem_cons_of_mem _ h2)
  rcases key l [] h with h2 | h2
  · exact absurd h2 (List.not_mem_nil x)
  · exact h2

theorem candidateUrls_ne_empty (envUrl : Option String) (u : String)
    (h : u ∈ candidateUrls envUrl) : u ≠ "" := by
  have h2 := mem_jsSetDedup u _ h
  have hdev : devUrl envUrl ≠ "" := jsOrOpt_ne_empty _ _ (by decide)
  simp only [List.mem_cons, List.not_mem_nil, or_false] at h2
  rcases h2 with h3 | h3 | h3
  · subst h3; exact jsOrOpt_ne_empty _ _ hdev
  · subst h3; decide
  · subst h3; decide

/-- Claim C2: in every execution of `start`, the shell spawn action only
occurs after the readiness resolution action (never before it, and never
at all on the timeout path), and the URL injected into the shell's
environment is exactly the race's winning candidate URL. -/
theorem claim_C2_shell_spawn_after_readiness (envUrl : Option String)
    (out : Option String) (hwin : ∀ u, out = some u → u ∈ candidateUrls envUrl) :
    ∀ k u, (startTrace envUrl out).get? k = some (StartAction.spawnShell u) →
      ∃ j w, j < k ∧
        (startTrace envUrl out).get? j = some (StartAction.readyResolved w) ∧
        out = some w ∧ u = w := by
  intro k u hk
  cases out with
  | none =>
      exfalso
      match k, hk with
      | 0, hk => exact absurd hk (by simp [startTrace])
      | 1, hk => exact absurd hk (by simp [startTrace])
      | (n+2), hk => exact absurd hk (by simp [startTrace])
  | some w =>
      have hne : w ≠ "" := candidateUrls_ne_empty envUrl w (hwin w rfl)
      have henv : spawnElectronEnvUrl (some w) (some w) = w := by
        simp [spawnElectronEnvUrl, jsOrOpt, jsOrStr, hne]
      match k, hk with
      | 0, hk => exact absurd hk (by simp [startTrace])
      | 1, hk => exact absurd hk (by simp [startTrace])
      | 2, hk =>
          refine ⟨1, w, by omega, by simp [startTrace], rfl, ?_⟩
          have : spawnElectronEnvUrl (some w) (some w) = u := by
            simpa [startTrace] using hk
          rw [← this, henv]
      | (n+3), hk => exact absurd hk (by simp [startTrace])

theorem claim_C2_shell_spawn_after_readiness_witness :
    ∃ j w, j < 2 ∧
      (startTrace none (some "http://localhost:19006")).get? j
        = some (StartAction.readyResolved w) ∧
      (some "http://localhost:19006" : Option String) = some w ∧
      "http://localhost:19006" = w :=
  claim_C2_shell_spawn_after_readiness none (some "http://localhost:19006")
    (by intro u hu; simp at hu; subst hu; decide)
    2 "http://localhost:19006" (by decide)

/-! ### Packaging pipeline: `parseMakeArg`, maker filtering, exit codes -/

/-- Does the second character list start with the first? -/
def chStarts : List Char → List Char → Bool
  | [], _ => true
  | _ :: _, [] => false
  | a :: as, b :: bs => a = b && chStarts as bs

/-- JavaScript `String.prototype.includes` on character lists: `sub`
occurs somewhere in `l`. -/
def chHasSub (sub : List Char) : List Char → Bool
  | [] => chStarts sub []
  | c :: cs => chStarts sub (c :: cs) || chHasSub sub cs

/-- The method `s.includes(sub)`. -/
def jsIncludes (s sub : String) : Bool := chHasSub sub.toList s.toList

/-- The method `s.toLowerCase()` (ASCII-faithful). -/
def jsToLower (s : String) : String := String.map Char.toLower s

/-- The pipeline `val.split(',').map(s => s.trim()).filter(Boolean)`. -/
def parseMakeTokens (v : String) : List String :=
  ((v.splitOn ",").map String.trim).filter (fun t => t ≠ "")

/-- The scan `parseMakeArg()` over `argv.slice(2)`: the first
`--make=<list>` wins; a bare `--make` takes the following argument when
it exists, is nonempty and is not itself an option; otherwise the scan
continues; no match yields `null`. -/
def parseMakeArg : List String → Option (List String)
  | [] => none
  | a :: rest =>
      if chStarts "--make=".toList a.toList then
        some (parseMakeTokens (((a.splitOn "=").get? 1).getD ""))
      else if a = "--make" then
        match rest with
        | v :: _ =>
            if v ≠ "" && !chStarts "--".toList v.toList then
              some (parseMakeTokens v)
            else parseMakeArg rest
        | [] => none
      else parseMakeArg rest

/-- A Forge maker entry: an object carrying a `name`, a bare string, or
anything else (whose effective name is the empty string, per
`(m && m.name) || (typeof m === 'string' ? m : '')`). -/
inductive Maker where
  | named (name : String)
  | plain (s : String)
  | anon
  deriving Repr, DecidableEq

def makerName : Maker → String
  | .named n => n
  | .plain s => s
  | .anon => ""

/-- The deterministic default Forge maker set synthesized by `pack`. -/
def defaultMakers : List Maker :=
  [.named "@electron-forge/maker-squirrel", .named "@electron-forge/maker-zip",
   .named "@electron-forge/maker-deb", .named "@electron-forge/maker-rpm"]

/-- The `--make` filter in `pack`: lower-case the requested tokens and
keep each maker whose lower-cased name contains some token. -/
def filterMakers (makeMakers : List String) (makers : List Maker) : List Maker :=
  let tokens := makeMakers.map jsToLower
  makers.filter (fun m => tokens.any (fun tok => jsIncludes (jsToLower (makerName m)) tok))

/-- Outcome of the make-stage decision in `pack`: whether `make` is to be
skipped, and the maker list written into the workspace manifest. -/
structure MakeDecision where
  skipMake : Bool
  makers : List Maker
  deriving Repr, DecidableEq

/-- The decision logic of `pack`: with explicitly requested tokens the
default maker set is filtered (empty result ⇒ skip); with no `--make` at
all the maker list is cleared and `make` skipped. -/
def makeStage (makeMakers : Option (List String)) : MakeDecision :=
  match makeMakers with
  | some ts =>
      if ts.length > 0 then
        let filtered := filterMakers ts defaultMakers
        if filtered.length = 0 then ⟨true, filtered⟩ else ⟨false, filtered⟩
      else ⟨true, []⟩
  | none => ⟨true, []⟩

/-- The guard `!skipMake && makersInWorkspace.length > 0` on running
`electron-forge make`. -/
def makeWillRun (makeMakers : Option (List String)) : Bool :=
  let d := makeStage makeMakers
  !d.skipMake && d.makers.length > 0

/-- The forge commands a successful `pack` run invokes:
`electron-forge package` always, `electron-forge make` conditionally. -/
def packCommands (makeMakers : Option (List String)) : List String :=
  ["package"] ++ (if makeWillRun makeMakers then ["make"] else [])

theorem mem_make_packCommands (mm : Option (List String)) :
    "make" ∈ packCommands mm ↔ makeWillRun mm = true := by
  cases h : makeWillRun mm <;> simp [packCommands, h]

theorem filterMakers_ne_nil (ts : List String) (makers : List Maker) :
    filterMakers ts makers ≠ [] ↔
      ∃ m ∈ makers, ∃ t ∈ ts,
        jsIncludes (jsToLower (makerName m)) (jsToLower t) = true := by
  constructor
  · intro hne
    by_contra hno
    push_neg at hno
    apply hne
    simp only [filterMakers]
    rw [List.filter_eq_nil]
    intro m hm hany
    rw [List.any_eq_true] at hany
    obtain ⟨tok, htok, hinc⟩ := hany
    rw [List.mem_map] at htok
    obtain ⟨t, ht, rfl⟩ := htok
    exact absurd hinc (by simpa using hno m hm t ht)
  · rintro ⟨m, hm, t, ht, hinc⟩ hnil
    have hmem : m ∈ filterMakers ts makers := by
      simp only [filterMakers]
      rw [List.mem_filter]
      refine ⟨hm, ?_⟩
      rw [List.any_eq_true]
      exact ⟨jsToLower t, List.mem_map_of_mem _ ht, hinc⟩
    rw [hnil] at hmem
    exact absurd hmem (List.not_mem_nil m)

theorem makeWillRun_iff (ts : List String) :
    makeWillRun (some ts) = true ↔
      ts ≠ [] ∧ filterMakers ts defaultMakers ≠ [] := by
  cases ts with
  | nil => simp [makeWillRun, makeStage]
  | cons a t =>
      simp only [makeWillRun, makeStage, List.length_cons]
      rw [if_pos (by omega)]
      by_cases hf : (filterMakers (a :: t) defaultMakers).length = 0
      · rw [if_pos hf]
        simp only [Bool.not_true, Bool.false_and]
        constructor
        · intro h; exact absurd h (by simp)
        · rintro ⟨_, hne⟩
          rw [List.length_eq_zero] at hf
          exact absurd hf hne
      · rw [if_neg hf]
        simp only [Bool.not_false, Bool.true_and]
        constructor
        · intro _
          refine ⟨by simp, ?_⟩
          intro hh; rw [hh] at hf; exact hf rfl
        · intro _
          have : 0 < (filterMakers (a :: t) defaultMakers).length :=
            Nat.pos_of_ne_zero hf
          simpa using this

/-- Claim C6: `pack` always invokes the packaging-prepare command, and
invokes the distributable-producing command iff `--make` supplied a
nonempty token list of which at least one token case-insensitively
substring-matches a known maker identifier; a nonmatching or absent
token list merely skips the make step. -/
theorem claim_C6_make_stage_conditional (argv : List String) :
    "package" ∈ packCommands (parseMakeArg argv) ∧
    ("make" ∈ packCommands (parseMakeArg argv) ↔
      ∃ ts, parseMakeArg argv = some ts ∧ ts ≠ [] ∧
        ∃ m ∈ defaultMakers, ∃ t ∈ ts,
          jsIncludes (jsToLower (makerName m)) (jsToLower t) = true) := by
  refine ⟨by simp [packCommands], ?_⟩
  rw [mem_make_packCommands]
  cases hp : parseMakeArg argv with
  | none =>
      simp only [makeWillRun, makeStage]
      constructor
      · intro h; exact absurd h (by simp)
      · rintro ⟨ts, hts, _⟩; exact absurd hts (by simp)
  | some ts =>
      rw [makeWillRun_iff, filterMakers_ne_nil]
      constructor
      · rintro ⟨hne, hex⟩; exact ⟨ts, rfl, hne, hex⟩
      · rintro ⟨ts2, hts2, hne, hex⟩
        injection hts2 with hts2
        subst hts2
        exact ⟨hne, hex⟩

/-! ### Packaging pipeline failure semantics (`pack`) -/

/-- The external outcomes a `pack` run depends on, in the order the code
consults them: whether `prebuild()` throws, the two required binaries,
the packaging-workspace removal, the `expo --help` capability probe and
its advertised `export` capability, and the three staged commands. -/
structure PackWorld where
  prebuildOk : Bool
  expoPresent : Bool
  forgePresent : Bool
  buildDirExists : Bool
  removeOk : Bool
  helpRunOk : Bool
  helpHasExport : Bool
  exportOk : Bool
  packageOk : Bool
  makeOk : Bool
  deriving Repr, DecidableEq

/-- The `pack` control flow as a sequence of guarded `process.exit`
calls: `.error c` is `process.exit(c)`, `.ok ()` a completed run. -/
def packRun (w : PackWorld) (mm : Option (List String)) : Except Nat Unit :=
  if !w.prebuildOk then .error 3
  else if !w.expoPresent then .error 2
  else if !w.forgePresent then .error 2
  else if w.buildDirExists && !w.removeOk then .error 1
  else if !w.helpRunOk then .error 2
  else if !w.helpHasExport then .error 4
  else if !w.exportOk then .error 4
  else if !w.packageOk then .error 5
  else if makeWillRun mm && !w.makeOk then .error 5
  else .ok ()

/-- The five user-facing failure classes of the `package` command. -/
inductive PackFailure where
  | prebuildStage
  | missingBinaryOrProbe
  | workspaceReset
  | exportStage
  | packageMake
  deriving Repr, DecidableEq

def exitCodeOf : PackFailure → Nat
  | .prebuildStage => 3
  | .missingBinaryOrProbe => 2
  | .workspaceReset => 1
  | .exportStage => 4
  | .packageMake => 5

/-- The first failing stage of a run, in control-flow order. -/
def firstFailure (w : PackWorld) (mm : Option (List String)) : Option PackFailure :=
  if !w.prebuildOk then some .prebuildStage
  else if !w.expoPresent then some .missingBinaryOrProbe
  else if !w.forgePresent then some .missingBinaryOrProbe
  else if w.buildDirExists && !w.removeOk then some .workspaceReset
  else if !w.helpRunOk then some .missingBinaryOrProbe
  else if !w.helpHasExport then some .exportStage
  else if !w.exportOk then some .exportStage
  else if !w.packageOk then some .packageMake
  else if makeWillRun mm && !w.makeOk then some .packageMake
  else none

/-- The exit behavior a failure classification prescribes. -/
def exitOf : Option PackFailure → Except Nat Unit
  | some f => .error (exitCodeOf f)
  | none => .ok ()

/-- Claim C7: every failure path of `package` exits with its stage's
code — 3 for prebuild, 2 for a missing required binary or a probe that
cannot run, 1 for a failed workspace reset, 4 for a failed export or an
absent export capability, 5 for package/make failures — and the five
failure classes carry pairwise distinct exit codes. -/
theorem claim_C7_distinct_exit_codes (w : PackWorld) (mm : Option (List String)) :
    packRun w mm = exitOf (firstFailure w mm) ∧
    (∀ f g : PackFailure, exitCodeOf f = exitCodeOf g → f = g) := by
  constructor
  · unfold packRun firstFailure
    split_ifs <;> rfl
  · intro f g h
    cases f <;> cases g <;> first
      | rfl
      | (exfalso; simp [exitCodeOf] at h)

/-! ### RPM maker adjustment (cli.js `pack`, `commandExistsInPath`) -/

/-- Does the lower-cased maker name mention rpm? -/
def isRpmMaker (m : Maker) : Bool := jsIncludes (jsToLower (makerName m)) "rpm"

/-- POSIX `commandExistsInPath`: some nonempty `PATH` entry contains an
executable (probed by `fs.accessSync(..., X_OK)`, abstracted as a
predicate on joined paths) named `cmd`. -/
def commandExistsInPath (pathDirs : List String) (executableAt : String → Bool)
    (cmd : String) : Bool :=
  (pathDirs.filter (fun d => d ≠ "")).any (fun dir => executableAt (dir ++ "/" ++ cmd))

/-- The RPM guard in `pack`: if the maker set names an rpm maker and
`rpmbuild` is not on `PATH`, remove every rpm maker entry. -/
def adjustMakersForRpm (makers : List Maker) (rpmbuildAvailable : Bool) : List Maker :=
  if makers.any isRpmMaker then
    if !rpmbuildAvailable then makers.filter (fun m => !isRpmMaker m) else makers
  else makers

/-- Claim C9: with `rpmbuild` absent from `PATH`, the workspace maker set
is exactly the original set minus every rpm maker — no rpm maker
survives, every non-rpm maker survives (in order), and the adjustment is
a total function (the pipeline does not fail over the missing RPM
toolchain). -/
theorem claim_C9_rpm_makers_dropped (pathDirs : List String)
    (executableAt : String → Bool) (makers : List Maker)
    (h : commandExistsInPath pathDirs executableAt "rpmbuild" = false) :
    adjustMakersForRpm makers (commandExistsInPath pathDirs executableAt "rpmbuild")
        = makers.filter (fun m => !isRpmMaker m) ∧
    (∀ m ∈ adjustMakersForRpm makers
        (commandExistsInPath pathDirs executableAt "rpmbuild"), isRpmMaker m = false) ∧
    (∀ m ∈ makers, isRpmMaker m = false →
        m ∈ adjustMakersForRpm makers
          (commandExistsInPath pathDirs executableAt "rpmbuild")) := by
  rw [h]
  have hfilter : adjustMakersForRpm makers false
      = makers.filter (fun m => !isRpmMaker m) := by
    simp only [adjustMakersForRpm]
    by_cases hany : makers.any isRpmMaker = true
    · rw [if_pos hany]
      simp
    · rw [if_neg hany]
      rw [List.any_eq_true] at hany
      push_neg at hany
      symm
      rw [List.filter_eq_self]
      intro m hm
      simpa using hany m hm
  refine ⟨hfilter, ?_, ?_⟩
  · intro m hm
    rw [hfilter] at hm
    rw [List.mem_filter] at hm
    simpa using hm.2
  · intro m hm hnot
    rw [hfilter, List.mem_filter]
    exact ⟨hm, by simp [hnot]⟩

theorem claim_C9_rpm_makers_dropped_witness :
    adjustMakersForRpm defaultMakers
        (commandExistsInPath [] (fun _ => true) "rpmbuild")
      = defaultMakers.filter (fun m => !isRpmMaker m) ∧
    (∀ m ∈ adjustMakersForRpm defaultMakers
        (commandExistsInPath [] (fun _ => true) "rpmbuild"), isRpmMaker m = false) ∧
    (∀ m ∈ defaultMakers, isRpmMaker m = false →
        m ∈ adjustMakersForRpm defaultMakers
          (commandExistsInPath [] (fun _ => true) "rpmbuild")) :=
  claim_C9_rpm_makers_dropped [] (fun _ => true) defaultMakers (by decide)

/-! ### Workspace builder: `copyRecursiveSkipExisting`

A filesystem subtree is a file with contents or a directory with an
association list of named children (real directories have unique names;
none of the proofs below need that assumption).  The destination of a
copy may be absent (`none`).  `copyRecursiveSkipExisting(src, dest,
skipFiles)` never overwrites: an existing destination file is skipped,
matching directories are merged recursively, a missing destination is
copied fresh, and entries named in `skipFiles` are skipped
unconditionally.  Copying a nonempty source directory (with at least one
non-skipped entry) over an existing destination *file* throws `ENOTDIR`
before writing anything; that is the `.error` case. -/

inductive FsNode where
  | file (content : String)
  | dir (children : List (String × FsNode))
  deriving Repr

/-- First-match association lookup (a real directory's unique entry). -/
def lookupChild (n : String) : List (String × FsNode) → Option FsNode
  | [] => none
  | (k, v) :: rest => if k = n then some v else lookupChild n rest

/-- Replace the first entry named `n` (in-place directory update). -/
def setChild (n : String) (v : FsNode) : List (String × FsNode) → List (String × FsNode)
  | [] => []
  | (k, w) :: rest => if k = n then (k, v) :: rest else (k, w) :: setChild n v rest

mutual

/-- The function `copyRecursiveSkipExisting(src, dest, skipFiles)` — the resulting
destination subtree, or `.error` for the `ENOTDIR` throw. -/
def copySkip (skip : List String) (src : FsNode) (dest : Option FsNode) :
    Except Unit FsNode :=
  match src, dest with
  | .file c, none => .ok (.file c)
  | .file _, some d => .ok d
  | .dir cs, none => (copySkipEntries skip cs []).map .dir
  | .dir cs, some (.dir ds) => (copySkipEntries skip cs ds).map .dir
  | .dir cs, some (.file f) =>
      if cs.all (fun e => e.1 ∈ skip) then .ok (.file f) else .error ()
termination_by sizeOf src

/-- The entry loop of `copyRecursiveSkipExisting` over a source
directory's children, threading the destination directory's children. -/
def copySkipEntries (skip : List String) (cs ds : List (String × FsNode)) :
    Except Unit (List (String × FsNode)) :=
  match cs with
  | [] => .ok ds
  | (n, t) :: rest =>
      if n ∈ skip then copySkipEntries skip rest ds
      else
        match lookupChild n ds with
        | some d =>
            match d, t with
            | .dir dds, .dir tts =>
                match copySkip skip (.dir tts) (some (.dir dds)) with
                | .ok r => copySkipEntries skip rest (setChild n r ds)
                | .error e => .error e
            | _, _ => copySkipEntries skip rest ds
        | none =>
            match copySkip skip t none with
            | .ok r => copySkipEntries skip rest (ds ++ [(n, r)])
            | .error e => .error e
termination_by sizeOf cs

end

/-- The destination tree after a run: the tree the throw left behind is
the unmodified original (the exception aborts before any write). -/
def runCopySkip (skip : List String) (src : FsNode) (dest : Option FsNode) :
    Option FsNode :=
  match copySkip skip src dest with
  | .ok r => some r
  | .error _ => dest

/-- Path lookup through an optional root. -/
def lookupPath : Option FsNode → List String → Option FsNode
  | d, [] => d
  | some (.dir ds), n :: p => lookupPath (lookupChild n ds) p
  | some (.file _), _ :: _ => none
  | none, _ :: _ => none

theorem lookupChild_sizeOf (n : String) (ds : List (String × FsNode))
    (v : FsNode) (h : lookupChild n ds = some v) : sizeOf v < sizeOf ds := by
  induction ds with
  | nil => simp [lookupChild] at h
  | cons hd tl ih =>
      obtain ⟨k, w⟩ := hd
      simp only [lookupChild] at h
      by_cases hk : k = n
      · rw [if_pos hk] at h
        injection h with h
        subst h
        simp
        omega
      · rw [if_neg hk] at h
        have := ih h
        simp
        omega

theorem mem_entry_sizeOf (n : String) (t : FsNode)
    (cs : List (String × FsNode)) (h : (n, t) ∈ cs) : sizeOf t < sizeOf cs := by
  induction cs with
  | nil => simp at h
  | cons hd tl ih =>
      rcases List.mem_cons.mp h with h2 | h2
      · subst h2; simp; omega
      · have := ih h2; simp; omega

theorem setChild_eq_of_lookup (n : String) (v : FsNode)
    (ds : List (String × FsNode)) (h : lookupChild n ds = some v) :
    setChild n v ds = ds := by
  induction ds with
  | nil => rfl
  | cons hd tl ih =>
      obtain ⟨k, w⟩ := hd
      simp only [lookupChild, setChild] at h ⊢
      by_cases hk : k = n
      · rw [if_pos hk] at h ⊢
        injection h with h
        rw [h]
      · rw [if_neg hk] at h ⊢
        rw [ih h]

theorem lookupChild_setChild_self (n : String) (v : FsNode)
    (ds : List (String × FsNode)) (h : (lookupChild n ds).isSome) :
    lookupChild n (setChild n v ds) = some v := by
  induction ds with
  | nil => simp [lookupChild] at h
  | cons hd tl ih =>
      obtain ⟨k, w⟩ := hd
      simp only [lookupChild, setChild] at h ⊢
      by_cases hk : k = n
      · rw [if_pos hk]
        simp [lookupChild, hk]
      · rw [if_neg hk] at h ⊢
        simp only [lookupChild, if_neg hk]
        exact ih h

theorem lookupChild_setChild_other (n m : String) (v : FsNode)
    (ds : List (String × FsNode)) (h : m ≠ n) :
    lookupChild m (setChild n v ds) = lookupChild m ds := by
  induction ds with
  | nil => rfl
  | cons hd tl ih =>
      obtain ⟨k, w⟩ := hd
      simp only [setChild]
      by_cases hk : k = n
      · rw [if_pos hk]
        simp only [lookupChild]
        rw [if_neg (by rw [hk]; intro hh; exact h hh.symm),
            if_neg (by rw [hk]; intro hh; exact h hh.symm)]
      · rw [if_neg hk]
        simp only [lookupChild]
        by_cases hm : k = m
        · rw [if_pos hm, if_pos hm]
        · rw [if_neg hm, if_neg hm]
          exact ih

theorem lookupChild_append_left (m : String) (ds l : List (String × FsNode))
    (v : FsNode) (h : lookupChild m ds = some v) :
    lookupChild m (ds ++ l) = some v := by
  induction ds with
  | nil => simp [lookupChild] at h
  | cons hd tl ih =>
      obtain ⟨k, w⟩ := hd
      simp only [lookupChild, List.cons_append] at h ⊢
      by_cases hk : k = m
      · rw [if_pos hk] at h ⊢; exact h
      · rw [if_neg hk] at h ⊢; exact ih h

/-- The relation `Extends v v2`: the copy only added — an existing file is byte-for-byte
unchanged and an existing directory keeps an extension of every child. -/
inductive Extends : FsNode → FsNode → Prop where
  | file (c : String) : Extends (.file c) (.file c)
  | dir (ds ds2 : List (String × FsNode)) :
      (∀ n v, lookupChild n ds = some v → (lookupChild n ds2).isSome = true) →
      (∀ n v v2, lookupChild n ds = some v → lookupChild n ds2 = some v2 →
        Extends v v2) →
      Extends (.dir ds) (.dir ds2)

/-- Entry-list version of `Extends`. -/
def ExtendsDs (ds ds2 : List (String × FsNode)) : Prop :=
  ∀ n v, lookupChild n ds = some v →
    ∃ v2, lookupChild n ds2 = some v2 ∧ Extends v v2

theorem extends_refl (t : FsNode) : Extends t t := by
  match t with
  | .file c => exact Extends.file c
  | .dir ds =>
      refine Extends.dir ds ds ?_ ?_
      · intro n v hv
        rw [hv]; rfl
      · intro n v v2 hv hv2
        rw [hv] at hv2
        injection hv2 with hv2
        subst hv2
        exact extends_refl v
termination_by sizeOf t
decreasing_by
  simp_wf
  have := lookupChild_sizeOf n ds v hv
  omega

theorem extends_dir_inv (ds : List (String × FsNode)) (x : FsNode)
    (h : Extends (.dir ds) x) :
    ∃ ds2, x = .dir ds2 ∧ ExtendsDs ds ds2 := by
  cases h with
  | dir _ ds2 H1 H2 =>
      refine ⟨ds2, rfl, ?_⟩
      intro n v hv
      obtain ⟨v2, hv2⟩ := Option.isSome_iff_exists.mp (H1 n v hv)
      exact ⟨v2, hv2, H2 n v v2 hv hv2⟩

theorem extends_dir_of_ds (ds ds2 : List (String × FsNode))
    (h : ExtendsDs ds ds2) : Extends (.dir ds) (.dir ds2) := by
  refine Extends.dir ds ds2 ?_ ?_
  · intro n v hv
    obtain ⟨v2, hv2, _⟩ := h n v hv
    rw [hv2]; rfl
  · intro n v v2 hv hv2
    obtain ⟨w, hw, e⟩ := h n v hv
    rw [hw] at hv2
    injection hv2 with hv2
    subst hv2
    exact e

theorem extends_trans_aux (k : Nat) :
    ∀ a b c : FsNode, sizeOf a ≤ k → Extends a b → Extends b c → Extends a c := by
  induction k with
  | zero =>
      intro a b c hk h1 h2
      exfalso
      cases a <;> simp at hk <;> omega
  | succ k ih =>
      intro a b c hk h1 h2
      cases h1 with
      | file cc => exact h2
      | dir ds ds2 H1a H1b =>
          obtain ⟨ds3, rfl, H2⟩ := extends_dir_inv ds2 c h2
          refine Extends.dir ds ds3 ?_ ?_
          · intro n v hv
            obtain ⟨v2, hv2⟩ := Option.isSome_iff_exists.mp (H1a n v hv)
            obtain ⟨v3, hv3, _⟩ := H2 n v2 hv2
            rw [hv3]; rfl
          · intro n v v3 hv hv3
            obtain ⟨v2, hv2⟩ := Option.isSome_iff_exists.mp (H1a n v hv)
            have e12 : Extends v v2 := H1b n v v2 hv hv2
            obtain ⟨v3', hv3', e23⟩ := H2 n v2 hv2
            rw [hv3'] at hv3
            injection hv3 with hv3
            subst hv3
            have hsz : sizeOf v ≤ k := by
              have h5 := lookupChild_sizeOf n ds v hv
              simp at hk
              omega
            exact ih v v2 v3' hsz e12 e23

theorem extends_trans (a b c : FsNode) (h1 : Extends a b) (h2 : Extends b c) :
    Extends a c :=
  extends_trans_aux (sizeOf a) a b c le_rfl h1 h2

theorem extendsDs_refl (ds : List (String × FsNode)) : ExtendsDs ds ds :=
  fun _ v h => ⟨v, h, extends_refl v⟩

theorem extendsDs_trans (a b c : List (String × FsNode))
    (h1 : ExtendsDs a b) (h2 : ExtendsDs b c) : ExtendsDs a c := by
  intro n v hv
  obtain ⟨v2, hv2, e12⟩ := h1 n v hv
  obtain ⟨v3, hv3, e23⟩ := h2 n v2 hv2
  exact ⟨v3, hv3, extends_trans v v2 v3 e12 e23⟩

theorem extendsDs_setChild (n : String) (v r : FsNode)
    (ds : List (String × FsNode)) (hlk : lookupChild n ds = some v)
    (hext : Extends v r) : ExtendsDs ds (setChild n r ds) := by
  intro m w hw
  by_cases hm : m = n
  · subst hm
    rw [hw] at hlk
    injection hlk with hlk
    subst hlk
    refine ⟨r, ?_, hext⟩
    exact lookupChild_setChild_self m r ds (by rw [hw]; rfl)
  · refine ⟨w, ?_, extends_refl w⟩
    rw [lookupChild_setChild_other n m r ds hm]
    exact hw

theorem extendsDs_append (ds l : List (String × FsNode)) :
    ExtendsDs ds (ds ++ l) :=
  fun m v h => ⟨v, lookupChild_append_left m ds l v h, extends_refl v⟩

theorem extends_file_inv (c : String) (x : FsNode)
    (h : Extends (.file c) x) : x = .file c := by
  cases h; rfl

theorem extends_to_dir_inv (v : FsNode) (ds2 : List (String × FsNode))
    (h : Extends v (.dir ds2)) : ∃ ds, v = .dir ds := by
  cases h with
  | dir ds _ _ _ => exact ⟨ds, rfl⟩

theorem extends_to_file_inv (v : FsNode) (c : String)
    (h : Extends v (.file c)) : v = .file c := by
  cases h; rfl

theorem lookupPath_none (p : List String) : lookupPath none p = none := by
  cases p <;> rfl

/-- Existing files survive an extension at every path. -/
theorem lookupPath_extends (p : List String) :
    ∀ (d r : FsNode), Extends d r → ∀ c : String,
      lookupPath (some d) p = some (.file c) →
      lookupPath (some r) p = some (.file c) := by
  induction p with
  | nil =>
      intro d r hext c hc
      simp only [lookupPath] at hc ⊢
      injection hc with hc
      subst hc
      rw [extends_file_inv c r hext]
  | cons n q ih =>
      intro d r hext c hc
      cases d with
      | file cc => simp [lookupPath] at hc
      | dir ds =>
          obtain ⟨ds2, rfl, H⟩ := extends_dir_inv ds r hext
          simp only [lookupPath] at hc ⊢
          cases hlk : lookupChild n ds with
          | none => rw [hlk, lookupPath_none] at hc; exact absurd hc (by simp)
          | some v =>
              rw [hlk] at hc
              obtain ⟨v2, hv2, e⟩ := H n v hlk
              rw [hv2]
              exact ih v v2 e c hc

theorem copySkip_file_none (skip : List String) (c : String) :
    copySkip skip (.file c) none = .ok (.file c) := by
  simp [copySkip]

theorem copySkip_file_some (skip : List String) (c : String) (d : FsNode) :
    copySkip skip (.file c) (some d) = .ok d := by
  simp [copySkip]

theorem copySkip_dir_none (skip : List String) (cs : List (String × FsNode)) :
    copySkip skip (.dir cs) none = (copySkipEntries skip cs []).map .dir := by
  simp [copySkip]

theorem copySkip_dir_dir (skip : List String) (cs ds : List (String × FsNode)) :
    copySkip skip (.dir cs) (some (.dir ds))
      = (copySkipEntries skip cs ds).map .dir := by
  simp [copySkip]

theorem copySkip_dir_file (skip : List String) (cs : List (String × FsNode))
    (f : String) :
    copySkip skip (.dir cs) (some (.file f))
      = if cs.all (fun e => e.1 ∈ skip) then .ok (.file f) else .error () := by
  simp [copySkip]

theorem copySkipEntries_nil (skip : List String) (ds : List (String × FsNode)) :
    copySkipEntries skip [] ds = .ok ds := by
  simp [copySkipEntries]

theorem copySkipEntries_cons (skip : List String) (n : String) (t : FsNode)
    (rest ds : List (String × FsNode)) :
    copySkipEntries skip ((n, t) :: rest) ds =
      if n ∈ skip then copySkipEntries skip rest ds
      else
        match lookupChild n ds with
        | some d =>
            match d, t with
            | .dir dds, .dir tts =>
                match copySkip skip (.dir tts) (some (.dir dds)) with
                | .ok r => copySkipEntries skip rest (setChild n r ds)
                | .error e => .error e
            | _, _ => copySkipEntries skip rest ds
        | none =>
            match copySkip skip t none with
            | .ok r => copySkipEntries skip rest (ds ++ [(n, r)])
            | .error e => .error e := by
  rw [copySkipEntries]

/-- A successful copy only extends an existing destination (fueled mutual
induction over source size). -/
theorem copySkip_extends_aux (k : Nat) :
    (∀ (skip : List String) (src d r : FsNode), sizeOf src ≤ k →
        copySkip skip src (some d) = .ok r → Extends d r) ∧
    (∀ (skip : List String) (cs ds ds' : List (String × FsNode)), sizeOf cs ≤ k →
        copySkipEntries skip cs ds = .ok ds' → ExtendsDs ds ds') := by
  induction k with
  | zero =>
      constructor
      · intro skip src d r hk _
        exfalso; cases src <;> simp at hk <;> omega
      · intro skip cs ds ds' hk _
        exfalso; cases cs <;> simp at hk <;> omega
  | succ k ih =>
      constructor
      · intro skip src d r hk h
        cases src with
        | file c =>
            rw [copySkip_file_some] at h
            injection h with h
            rw [← h]
            exact extends_refl d
        | dir cs =>
            cases d with
            | dir ds =>
                rw [copySkip_dir_dir] at h
                cases he : copySkipEntries skip cs ds with
                | ok ds' =>
                    rw [he] at h
                    replace h : (Except.ok (FsNode.dir ds') : Except Unit FsNode)
                        = .ok r := h
                    injection h with h
                    subst h
                    refine extends_dir_of_ds ds ds' (ih.2 skip cs ds ds' ?_ he)
                    simp at hk; omega
                | error e =>
                    rw [he] at h
                    exact absurd h (by simp [Except.map])
            | file f =>
                rw [copySkip_dir_file] at h
                by_cases hall : cs.all (fun e => e.1 ∈ skip) = true
                · rw [if_pos hall] at h
                  injection h with h
                  subst h
                  exact extends_refl (.file f)
                · rw [if_neg hall] at h
                  exact absurd h (by simp)
      · intro skip cs ds ds' hk h
        cases cs with
        | nil =>
            rw [copySkipEntries_nil] at h
            injection h with h
            rw [← h]
            exact extendsDs_refl ds
        | cons hd rest =>
            obtain ⟨n, t⟩ := hd
            rw [copySkipEntries_cons] at h
            by_cases hskip : n ∈ skip
            · rw [if_pos hskip] at h
              refine ih.2 skip rest ds ds' ?_ h
              simp at hk; omega
            · rw [if_neg hskip] at h
              cases hlk : lookupChild n ds with
              | some d =>
                  rw [hlk] at h
                  cases d with
                  | dir dds =>
                      cases t with
                      | dir tts =>
                          dsimp only at h
                          cases hcp : copySkip skip (.dir tts) (some (.dir dds)) with
                          | ok r =>
                              rw [hcp] at h
                              replace h : copySkipEntries skip rest (setChild n r ds)
                                  = .ok ds' := h
                              have e1 : Extends (.dir dds) r := by
                                refine ih.1 skip (.dir tts) (.dir dds) r ?_ hcp
                                simp at hk ⊢; omega
                              have e2 : ExtendsDs (setChild n r ds) ds' := by
                                refine ih.2 skip rest _ ds' ?_ h
                                simp at hk; omega
                              exact extendsDs_trans _ _ _
                                (extendsDs_setChild n (.dir dds) r ds hlk e1) e2
                          | error e =>
                              rw [hcp] at h
                              exact absurd h (by simp)
                      | file c =>
                          dsimp only at h
                          refine ih.2 skip rest ds ds' ?_ h
                          simp at hk; omega
                  | file c =>
                      cases t with
                      | dir tts =>
                          dsimp only at h
                          refine ih.2 skip rest ds ds' ?_ h
                          simp at hk; omega
                      | file c2 =>
                          dsimp only at h
                          refine ih.2 skip rest ds ds' ?_ h
                          simp at hk; omega
              | none =>
                  rw [hlk] at h
                  dsimp only at h
                  cases hcp : copySkip skip t none with
                  | ok r =>
                      rw [hcp] at h
                      replace h : copySkipEntries skip rest (ds ++ [(n, r)])
                          = .ok ds' := h
                      have e2 : ExtendsDs (ds ++ [(n, r)]) ds' := by
                        refine ih.2 skip rest _ ds' ?_ h
                        simp at hk; omega
                      exact extendsDs_trans _ _ _ (extendsDs_append ds [(n, r)]) e2
                  | error e =>
                      rw [hcp] at h
                      exact absurd h (by simp)

/-- The relation `NoOpOn skip src d`: re-running the copy of `src` onto destination
`d` changes nothing (at the entry level): source files are always
skipped over an existing destination, a directory over a file is skipped
entry-wise, and a directory over a directory finds every non-skip-listed
child present, recursively no-op where both sides are directories. -/
inductive NoOpOn (skip : List String) : FsNode → FsNode → Prop where
  | fileSrc (c : String) (d : FsNode) : NoOpOn skip (.file c) d
  | dirOverFile (cs : List (String × FsNode)) (f : String) :
      NoOpOn skip (.dir cs) (.file f)
  | dirOverDir (cs ds : List (String × FsNode)) :
      (∀ n t, (n, t) ∈ cs → n ∉ skip → (lookupChild n ds).isSome = true) →
      (∀ n tts vds, (n, FsNode.dir tts) ∈ cs → n ∉ skip →
        lookupChild n ds = some (.dir vds) →
        NoOpOn skip (.dir tts) (.dir vds)) →
      NoOpOn skip (.dir cs) (.dir ds)

theorem noopOn_dir_dir_inv (skip : List String)
    (cs ds : List (String × FsNode)) (h : NoOpOn skip (.dir cs) (.dir ds)) :
    (∀ n t, (n, t) ∈ cs → n ∉ skip → (lookupChild n ds).isSome = true) ∧
    (∀ n tts vds, (n, FsNode.dir tts) ∈ cs → n ∉ skip →
      lookupChild n ds = some (.dir vds) →
      NoOpOn skip (.dir tts) (.dir vds)) := by
  cases h with
  | dirOverDir _ _ H1 H2 => exact ⟨H1, H2⟩

/-- A no-op destination stays a no-op destination under extension. -/
theorem noopOn_extends_aux (k : Nat) :
    ∀ (skip : List String) (t v v2 : FsNode), sizeOf t ≤ k →
      NoOpOn skip t v → Extends v v2 → NoOpOn skip t v2 := by
  induction k with
  | zero =>
      intro skip t v v2 hk _ _
      exfalso; cases t <;> simp at hk <;> omega
  | succ k ih =>
      intro skip t v v2 hk hno hext
      cases hno with
      | fileSrc c d => exact NoOpOn.fileSrc c v2
      | dirOverFile cs f =>
          rw [extends_file_inv f v2 hext]
          exact NoOpOn.dirOverFile cs f
      | dirOverDir cs ds H1 H2 =>
          obtain ⟨ds2, rfl, HE⟩ := extends_dir_inv ds v2 hext
          refine NoOpOn.dirOverDir cs ds2 ?_ ?_
          · intro n t2 hmem hns
            obtain ⟨v0, hv0⟩ :=
              Option.isSome_iff_exists.mp (H1 n t2 hmem hns)
            obtain ⟨v1, hv1, _⟩ := HE n v0 hv0
            rw [hv1]; rfl
          · intro n tts vds2 hmem hns hlk2
            obtain ⟨v0, hv0⟩ :=
              Option.isSome_iff_exists.mp (H1 n (.dir tts) hmem hns)
            obtain ⟨v1, hv1, he01⟩ := HE n v0 hv0
            rw [hv1] at hlk2
            injection hlk2 with hlk2
            subst hlk2
            obtain ⟨vds0, rfl⟩ := extends_to_dir_inv v0 vds2 he01
            refine ih skip (.dir tts) (.dir vds0) (.dir vds2) ?_
              (H2 n tts vds0 hmem hns hv0) he01
            have hsz := mem_entry_sizeOf n (.dir tts) cs hmem
            simp at hk hsz ⊢
            omega

theorem noopOn_extends (skip : List String) (t v v2 : FsNode)
    (hno : NoOpOn skip t v) (hext : Extends v v2) : NoOpOn skip t v2 :=
  noopOn_extends_aux (sizeOf t) skip t v v2 le_rfl hno hext

theorem copySkipEntries_extendsW (skip : List String)
    (cs ds ds' : List (String × FsNode))
    (h : copySkipEntries skip cs ds = .ok ds') : ExtendsDs ds ds' :=
  (copySkip_extends_aux (sizeOf cs)).2 skip cs ds ds' le_rfl h

theorem copySkip_extendsW (skip : List String) (src d r : FsNode)
    (h : copySkip skip src (some d) = .ok r) : Extends d r :=
  (copySkip_extends_aux (sizeOf src)).1 skip src d r le_rfl h

theorem lookupChild_append_self (n : String) (r : FsNode)
    (ds : List (String × FsNode)) (h : lookupChild n ds = none) :
    lookupChild n (ds ++ [(n, r)]) = some r := by
  induction ds with
  | nil => simp [lookupChild]
  | cons hd tl ih =>
      obtain ⟨k, w⟩ := hd
      simp only [lookupChild, List.cons_append] at h ⊢
      by_cases hk : k = n
      · rw [if_pos hk] at h; exact absurd h (by simp)
      · rw [if_neg hk] at h ⊢
        exact ih h

/-- A successful copy leaves a destination on which re-running the copy
is a no-op (fueled mutual induction over source size). -/
theorem copySkip_covers_aux (k : Nat) :
    (∀ (skip : List String) (src : FsNode) (dopt : Option FsNode) (r : FsNode),
        sizeOf src ≤ k → copySkip skip src dopt = .ok r → NoOpOn skip src r) ∧
    (∀ (skip : List String) (cs ds ds' : List (String × FsNode)), sizeOf cs ≤ k →
        copySkipEntries skip cs ds = .ok ds' →
        ∀ n t, (n, t) ∈ cs → n ∉ skip →
          (lookupChild n ds').isSome = true ∧
          (∀ tts vds, t = .dir tts → lookupChild n ds' = some (.dir vds) →
            NoOpOn skip (.dir tts) (.dir vds))) := by
  induction k with
  | zero =>
      constructor
      · intro skip src dopt r hk _
        exfalso; cases src <;> simp at hk <;> omega
      · intro skip cs ds ds' hk _
        exfalso; cases cs <;> simp at hk <;> omega
  | succ k ih =>
      constructor
      · intro skip src dopt r hk h
        cases src with
        | file c => exact NoOpOn.fileSrc c r
        | dir cs =>
            have hsz : sizeOf cs ≤ k := by simp at hk; omega
            cases dopt with
            | none =>
                rw [copySkip_dir_none] at h
                cases he : copySkipEntries skip cs [] with
                | ok ds' =>
                    rw [he] at h
                    replace h : (Except.ok (FsNode.dir ds') : Except Unit FsNode)
                        = .ok r := h
                    injection h with h
                    rw [← h]
                    have H := ih.2 skip cs [] ds' hsz he
                    refine NoOpOn.dirOverDir cs ds' ?_ ?_
                    · intro n t hmem hns; exact (H n t hmem hns).1
                    · intro n tts vds hmem hns hlk
                      exact (H n (.dir tts) hmem hns).2 tts vds rfl hlk
                | error e => rw [he] at h; exact absurd h (by simp [Except.map])
            | some d =>
                cases d with
                | dir ds =>
                    rw [copySkip_dir_dir] at h
                    cases he : copySkipEntries skip cs ds with
                    | ok ds' =>
                        rw [he] at h
                        replace h : (Except.ok (FsNode.dir ds') : Except Unit FsNode)
                            = .ok r := h
                        injection h with h
                        rw [← h]
                        have H := ih.2 skip cs ds ds' hsz he
                        refine NoOpOn.dirOverDir cs ds' ?_ ?_
                        · intro n t hmem hns; exact (H n t hmem hns).1
                        · intro n tts vds hmem hns hlk
                          exact (H n (.dir tts) hmem hns).2 tts vds rfl hlk
                    | error e => rw [he] at h; exact absurd h (by simp [Except.map])
                | file f =>
                    rw [copySkip_dir_file] at h
                    by_cases hall : cs.all (fun e => e.1 ∈ skip) = true
                    · rw [if_pos hall] at h
                      injection h with h
                      rw [← h]
                      exact NoOpOn.dirOverFile cs f
                    · rw [if_neg hall] at h
                      exact absurd h (by simp)
      · intro skip cs ds ds' hk h
        cases cs with
        | nil =>
            intro n t hmem _
            exact absurd hmem (List.not_mem_nil _)
        | cons hd rest =>
            obtain ⟨n0, t0⟩ := hd
            have hszr : sizeOf rest ≤ k := by simp at hk; omega
            have hszt : sizeOf t0 ≤ k := by simp at hk; omega
            rw [copySkipEntries_cons] at h
            by_cases hskip : n0 ∈ skip
            · rw [if_pos hskip] at h
              intro n t hmem hns
              rcases List.mem_cons.mp hmem with heq | hmem2
              · exfalso
                injection heq with h1 _
                rw [h1] at hns
                exact hns hskip
              · exact ih.2 skip rest ds ds' hszr h n t hmem2 hns
            · rw [if_neg hskip] at h
              cases hlk : lookupChild n0 ds with
              | some d =>
                  rw [hlk] at h
                  cases d with
                  | dir dds =>
                      cases t0 with
                      | dir tts =>
                          dsimp only at h
                          cases hcp : copySkip skip (.dir tts) (some (.dir dds)) with
                          | ok r0 =>
                              rw [hcp] at h
                              replace h : copySkipEntries skip rest
                                  (setChild n0 r0 ds) = .ok ds' := h
                              have hdse : ExtendsDs (setChild n0 r0 ds) ds' :=
                                copySkipEntries_extendsW skip rest _ ds' h
                              intro n t hmem hns
                              rcases List.mem_cons.mp hmem with heq | hmem2
                              · injection heq with h1 h2
                                subst h1
                                subst h2
                                have hlk1 : lookupChild n (setChild n r0 ds)
                                    = some r0 :=
                                  lookupChild_setChild_self n r0 ds
                                    (by rw [hlk]; rfl)
                                obtain ⟨v', hv', hex⟩ := hdse n r0 hlk1
                                have hno : NoOpOn skip (.dir tts) r0 :=
                                  ih.1 skip (.dir tts) (some (.dir dds)) r0
                                    hszt hcp
                                refine ⟨by rw [hv']; rfl, ?_⟩
                                intro tts' vds heq' hlk'
                                injection heq' with heq'
                                subst heq'
                                rw [hv'] at hlk'
                                injection hlk' with hlk'
                                subst hlk'
                                exact noopOn_extends skip (.dir tts) r0 _ hno hex
                              · exact ih.2 skip rest _ ds' hszr h n t hmem2 hns
                          | error e =>
                              rw [hcp] at h
                              exact absurd h (by simp)
                      | file c0 =>
                          dsimp only at h
                          have hdse : ExtendsDs ds ds' :=
                            copySkipEntries_extendsW skip rest ds ds' h
                          intro n t hmem hns
                          rcases List.mem_cons.mp hmem with heq | hmem2
                          · injection heq with h1 h2
                            subst h1
                            subst h2
                            obtain ⟨v', hv', hex⟩ := hdse n _ hlk
                            refine ⟨by rw [hv']; rfl, ?_⟩
                            intro tts' vds heq' _
                            exact absurd heq' (by simp)
                          · exact ih.2 skip rest ds ds' hszr h n t hmem2 hns
                  | file f0 =>
                      have hstep : copySkipEntries skip rest ds = .ok ds' := by
                        cases t0 <;> exact h
                      have hdse : ExtendsDs ds ds' :=
                        copySkipEntries_extendsW skip rest ds ds' hstep
                      intro n t hmem hns
                      rcases List.mem_cons.mp hmem with heq | hmem2
                      · injection heq with h1 h2
                        subst h1
                        subst h2
                        obtain ⟨v', hv', hex⟩ := hdse n _ hlk
                        refine ⟨by rw [hv']; rfl, ?_⟩
                        intro tts' vds heq' hlk'
                        rw [extends_file_inv f0 v' hex] at hv'
                        rw [hv'] at hlk'
                        exact absurd hlk' (by simp)
                      · exact ih.2 skip rest ds ds' hszr hstep n t hmem2 hns
              | none =>
                  rw [hlk] at h
                  dsimp only at h
                  cases hcp : copySkip skip t0 none with
                  | ok r0 =>
                      rw [hcp] at h
                      replace h : copySkipEntries skip rest (ds ++ [(n0, r0)])
                          = .ok ds' := h
                      have hdse : ExtendsDs (ds ++ [(n0, r0)]) ds' :=
                        copySkipEntries_extendsW skip rest _ ds' h
                      intro n t hmem hns
                      rcases List.mem_cons.mp hmem with heq | hmem2
                      · injection heq with h1 h2
                        subst h1
                        subst h2
                        have hlk1 : lookupChild n (ds ++ [(n, r0)]) = some r0 :=
                          lookupChild_append_self n r0 ds hlk
                        obtain ⟨v', hv', hex⟩ := hdse n r0 hlk1
                        have hno : NoOpOn skip t r0 :=
                          ih.1 skip t none r0 hszt hcp
                        refine ⟨by rw [hv']; rfl, ?_⟩
                        intro tts' vds heq' hlk'
                        subst heq'
                        rw [hv'] at hlk'
                        injection hlk' with hlk'
                        subst hlk'
                        exact noopOn_extends skip (.dir tts') r0 _ hno hex
                      · exact ih.2 skip rest _ ds' hszr h n t hmem2 hns
                  | error e =>
                      rw [hcp] at h
                      exact absurd h (by simp)

theorem copySkip_coversW (skip : List String) (src : FsNode)
    (dopt : Option FsNode) (r : FsNode) (h : copySkip skip src dopt = .ok r) :
    NoOpOn skip src r :=
  (copySkip_covers_aux (sizeOf src)).1 skip src dopt r le_rfl h

/-- On a covered destination the copy is the identity (fueled mutual
induction over source size). -/
theorem copySkip_noop_aux (k : Nat) :
    (∀ (skip : List String) (cs ds : List (String × FsNode)), sizeOf cs ≤ k →
        NoOpOn skip (.dir cs) (.dir ds) →
        copySkip skip (.dir cs) (some (.dir ds)) = .ok (.dir ds)) ∧
    (∀ (skip : List String) (cs ds : List (String × FsNode)), sizeOf cs ≤ k →
        (∀ n t, (n, t) ∈ cs → n ∉ skip →
          (lookupChild n ds).isSome = true ∧
          (∀ tts vds, t = .dir tts → lookupChild n ds = some (.dir vds) →
            NoOpOn skip (.dir tts) (.dir vds))) →
        copySkipEntries skip cs ds = .ok ds) := by
  induction k with
  | zero =>
      constructor
      · intro skip cs ds hk _
        exfalso; cases cs <;> simp at hk <;> omega
      · intro skip cs ds hk _
        exfalso; cases cs <;> simp at hk <;> omega
  | succ k ih =>
      have part2 : ∀ (skip : List String) (cs ds : List (String × FsNode)),
          sizeOf cs ≤ k + 1 →
          (∀ n t, (n, t) ∈ cs → n ∉ skip →
            (lookupChild n ds).isSome = true ∧
            (∀ tts vds, t = .dir tts → lookupChild n ds = some (.dir vds) →
              NoOpOn skip (.dir tts) (.dir vds))) →
          copySkipEntries skip cs ds = .ok ds := by
        intro skip cs ds hk H
        cases cs with
        | nil => exact copySkipEntries_nil skip ds
        | cons hd rest =>
            obtain ⟨n0, t0⟩ := hd
            have hszr : sizeOf rest ≤ k := by simp at hk; omega
            have Hrest : ∀ n t, (n, t) ∈ rest → n ∉ skip →
                (lookupChild n ds).isSome = true ∧
                (∀ tts vds, t = .dir tts → lookupChild n ds = some (.dir vds) →
                  NoOpOn skip (.dir tts) (.dir vds)) :=
              fun n t hm hns => H n t (List.mem_cons_of_mem _ hm) hns
            rw [copySkipEntries_cons]
            by_cases hskip : n0 ∈ skip
            · rw [if_pos hskip]
              exact ih.2 skip rest ds hszr Hrest
            · rw [if_neg hskip]
              obtain ⟨hsome, hdir⟩ := H n0 t0 (List.mem_cons_self _ _) hskip
              obtain ⟨d, hlk⟩ := Option.isSome_iff_exists.mp hsome
              rw [hlk]
              cases d with
              | dir dds =>
                  cases t0 with
                  | dir tts =>
                      dsimp only
                      have hno : NoOpOn skip (.dir tts) (.dir dds) :=
                        hdir tts dds rfl hlk
                      have hsztts : sizeOf tts ≤ k := by
                        simp at hk; omega
                      rw [ih.1 skip tts dds hsztts hno]
                      dsimp only
                      rw [setChild_eq_of_lookup n0 (.dir dds) ds hlk]
                      exact ih.2 skip rest ds hszr Hrest
                  | file c0 =>
                      dsimp only
                      exact ih.2 skip rest ds hszr Hrest
              | file f0 =>
                  have hres := ih.2 skip rest ds hszr Hrest
                  cases t0 <;> exact hres
      refine ⟨?_, part2⟩
      intro skip cs ds hk hno
      rw [copySkip_dir_dir]
      obtain ⟨H1, H2⟩ := noopOn_dir_dir_inv skip cs ds hno
      have H : ∀ n t, (n, t) ∈ cs → n ∉ skip →
          (lookupChild n ds).isSome = true ∧
          (∀ tts vds, t = .dir tts → lookupChild n ds = some (.dir vds) →
            NoOpOn skip (.dir tts) (.dir vds)) := by
        intro n t hm hns
        refine ⟨H1 n t hm hns, ?_⟩
        intro tts vds heq hlk
        subst heq
        exact H2 n tts vds hm hns hlk
      rw [part2 skip cs ds hk H]
      rfl

theorem copySkip_noopW (skip : List String) (cs ds : List (String × FsNode))
    (hno : NoOpOn skip (.dir cs) (.dir ds)) :
    copySkip skip (.dir cs) (some (.dir ds)) = .ok (.dir ds) :=
  (copySkip_noop_aux (sizeOf cs)).1 skip cs ds le_rfl hno

/-- Claim C4: `copyRecursiveSkipExisting` is idempotent — a second run
over the destination left by a first run reproduces that destination
exactly — and neither run overwrites any file that was already present
in the destination: every pre-existing file is found unchanged at its
path afterwards. -/
theorem claim_C4_copy_skip_idempotent (skip : List String) (src : FsNode)
    (dest : Option FsNode) :
    runCopySkip skip src (runCopySkip skip src dest) = runCopySkip skip src dest ∧
    (∀ (p : List String) (c : String), lookupPath dest p = some (.file c) →
        lookupPath (runCopySkip skip src dest) p = some (.file c)) := by
  cases hcp : copySkip skip src dest with
  | error e =>
      have hr : runCopySkip skip src dest = dest := by
        simp [runCopySkip, hcp]
      rw [hr]
      exact ⟨hr, fun p c h => h⟩
  | ok r =>
      have hr : runCopySkip skip src dest = some r := by
        simp [runCopySkip, hcp]
      rw [hr]
      constructor
      · have hself : copySkip skip src (some r) = .ok r := by
          cases src with
          | file c => exact copySkip_file_some skip c r
          | dir cs =>
              have hno : NoOpOn skip (.dir cs) r :=
                copySkip_coversW skip (.dir cs) dest r hcp
              cases r with
              | dir ds' => exact copySkip_noopW skip cs ds' hno
              | file f =>
                  cases dest with
                  | none =>
                      exfalso
                      rw [copySkip_dir_none] at hcp
                      cases he : copySkipEntries skip cs [] with
                      | ok x => rw [he] at hcp; simp [Except.map] at hcp
                      | error e => rw [he] at hcp; simp [Except.map] at hcp
                  | some d =>
                      cases d with
                      | dir ds0 =>
                          exfalso
                          rw [copySkip_dir_dir] at hcp
                          cases he : copySkipEntries skip cs ds0 with
                          | ok x => rw [he] at hcp; simp [Except.map] at hcp
                          | error e => rw [he] at hcp; simp [Except.map] at hcp
                      | file f0 =>
                          rw [copySkip_dir_file] at hcp ⊢
                          by_cases hall : cs.all (fun e => e.1 ∈ skip) = true
                          · rw [if_pos hall]
                          · rw [if_neg hall] at hcp
                            exact absurd hcp (by simp)
        simp [runCopySkip, hself]
      · intro p c h
        cases dest with
        | none => rw [lookupPath_none] at h; exact absurd h (by simp)
        | some d =>
            exact lookupPath_extends p d r
              (copySkip_extendsW skip src d r hcp) c h

theorem claim_C4_copy_skip_idempotent_witness :
    lookupPath
        (runCopySkip [] (.dir [("a", .file "x")])
          (some (.dir [("b", .file "y")])))
        ["b"] = some (.file "y") :=
  (claim_C4_copy_skip_idempotent [] (.dir [("a", .file "x")])
      (some (.dir [("b", .file "y")]))).2 ["b"] "y" rfl

/-! ### Resource manifest materialization (`pack`, electron-resources.json)

`pack` reads `electron/electron-resources.json` when present; each entry
`{from, to}` is resolved against the project root and the packaging
workspace.  A missing source logs a warning and is skipped; any
per-entry failure is caught, warned about, and the loop continues; an
absent manifest is a logged no-op.  Paths are modeled pre-split into
segments (`path.join` composition). -/

structure ResourceEntry where
  fromPath : List String
  toPath : List String

/-- One entry of the resource-copy loop: warn-and-skip when the source
is missing or the copy/mkdir throws, otherwise place the copy result at
the destination path (creating parent directories). -/
def placeAt : FsNode → List String → FsNode → Option FsNode
  | _, [], newNode => some newNode
  | .dir ds, n :: p, newNode =>
      (match lookupChild n ds with
       | some child => (placeAt child p newNode).map (fun c => .dir (setChild n c ds))
       | none => (placeAt (FsNode.dir []) p newNode).map
           (fun c => .dir (ds ++ [(n, c)])))
  | .file _, _ :: _, _ => none

def materializeOne (proj ws : FsNode) (r : ResourceEntry) : FsNode × Bool :=
  match lookupPath (some proj) r.fromPath with
  | none => (ws, true)
  | some srcNode =>
      match copySkip [] srcNode (lookupPath (some ws) r.toPath) with
      | .ok newNode =>
          match placeAt ws r.toPath newNode with
          | some ws2 => (ws2, false)
          | none => (ws, true)
      | .error _ => (ws, true)

/-- The whole materialization: `none` models an absent manifest file
(logged, nothing copied); otherwise the entries are processed in order,
collecting the warned-about entries. -/
def materialize (manifest : Option (List ResourceEntry)) (proj ws : FsNode) :
    FsNode × List ResourceEntry :=
  match manifest with
  | none => (ws, [])
  | some rs =>
      rs.foldl (fun acc r =>
        let step := materializeOne proj acc.1 r
        (step.1, acc.2 ++ (if step.2 then [r] else []))) (ws, [])

theorem materialize_all_missing_aux (proj : FsNode) (rs : List ResourceEntry)
    (h : ∀ x ∈ rs, lookupPath (some proj) x.fromPath = none) :
    ∀ (ws : FsNode) (acc : List ResourceEntry),
      rs.foldl (fun acc r =>
        let step := materializeOne proj acc.1 r
        (step.1, acc.2 ++ (if step.2 then [r] else []))) (ws, acc)
      = (ws, acc ++ rs) := by
  induction rs with
  | nil => intro ws acc; simp
  | cons r rest ih =>
      intro ws acc
      have hone : materializeOne proj ws r = (ws, true) := by
        simp [materializeOne, h r (List.mem_cons_self _ _)]
      rw [List.foldl_cons]
      dsimp only
      rw [hone]
      dsimp only
      rw [if_pos rfl]
      rw [ih (fun x hx => h x (List.mem_cons_of_mem _ hx)) ws (acc ++ [r])]
      simp

/-- Claim C8: an absent manifest is a non-error no-op; an entry whose
source path does not exist is warned about and skipped, leaving the
workspace untouched — in particular its destination path is not created;
a manifest all of whose sources are missing completes with the workspace
unchanged and one warning per entry. -/
theorem claim_C8_missing_resource_nonfatal (proj ws : FsNode)
    (r : ResourceEntry) (rs : List ResourceEntry) :
    (materialize none proj ws = (ws, [])) ∧
    (lookupPath (some proj) r.fromPath = none →
        materializeOne proj ws r = (ws, true)) ∧
    (lookupPath (some proj) r.fromPath = none →
        lookupPath (some ws) r.toPath = none →
        lookupPath (some (materializeOne proj ws r).1) r.toPath = none) ∧
    ((∀ x ∈ rs, lookupPath (some proj) x.fromPath = none) →
        materialize (some rs) proj ws = (ws, rs)) := by
  refine ⟨rfl, ?_, ?_, ?_⟩
  · intro hmiss
    simp [materializeOne, hmiss]
  · intro hmiss hdest
    simp [materializeOne, hmiss]
    exact hdest
  · intro hall
    have := materialize_all_missing_aux proj rs hall ws []
    simpa [materialize] using this

theorem claim_C8_missing_resource_nonfatal_witness :
    materializeOne (FsNode.dir []) (FsNode.dir [])
        { fromPath := ["missing"], toPath := ["native", "x"] }
      = (FsNode.dir [], true) ∧
    materialize (some [{ fromPath := ["missing"], toPath := ["native", "x"] }])
        (FsNode.dir []) (FsNode.dir [])
      = (FsNode.dir [], [{ fromPath := ["missing"], toPath := ["native", "x"] }]) :=
  ⟨(claim_C8_missing_resource_nonfatal (FsNode.dir []) (FsNode.dir [])
      { fromPath := ["missing"], toPath := ["native", "x"] } []).2.1 rfl,
   (claim_C8_missing_resource_nonfatal (FsNode.dir []) (FsNode.dir [])
      { fromPath := ["missing"], toPath := ["native", "x"] }
      [{ fromPath := ["missing"], toPath := ["native", "x"] }]).2.2.2
      (by intro x hx; simp at hx; rw [hx]; rfl)⟩

/-! ### Readiness prober (`waitForUrl` and the race in `start`)

Each probe attempt against a URL either yields an HTTP response (with
some status code, after some duration) or a connection error (including
the 2 s per-attempt abort, which surfaces through the error handler).
`waitForUrl` resolves on the first response; on an error it rejects iff
the elapsed time exceeds the timeout and otherwise retries after the
500 ms interval.  `start` races the per-candidate waits against an
overall 120 s timer and exits with code 1 when the race rejects. -/

inductive Attempt where
  | response (dur : Nat) (status : Nat)
  | connError (dur : Nat)
  deriving Repr, DecidableEq

inductive PollResult where
  | resolved (t : Nat)
  | rejected (t : Nat)
  | pending
  deriving Repr, DecidableEq

def POLL_INTERVAL : Nat := 500
def TIMEOUT_MS : Nat := 120000

/-- The recursive polling loop of `waitForUrl` over the attempt outcomes
the network delivers (`pending` = the modeled outcome list ran out). -/
def waitPoll (timeoutMs : Nat) (elapsed : Nat) : List Attempt → PollResult
  | [] => .pending
  | .response d _ :: _ => .resolved (elapsed + d)
  | .connError d :: rest =>
      if elapsed + d > timeoutMs then .rejected (elapsed + d)
      else waitPoll timeoutMs (elapsed + d + POLL_INTERVAL) rest

def isConnErrorA : Attempt → Bool
  | .connError _ => true
  | .response _ _ => false

/-- Replace every response's status code. -/
def setStatuses (f : Nat → Nat) : List Attempt → List Attempt :=
  List.map (fun a => match a with
    | .response d s => .response d (f s)
    | .connError d => .connError d)

/-- The poll `waitForUrl(url)` as used by `start` (default 120 s timeout), reduced
to its resolution time if it resolves. -/
def resolveTime (l : List Attempt) : Option Nat :=
  match waitPoll TIMEOUT_MS 0 l with
  | .resolved t => some t
  | _ => none

/-- The race `Promise.race([overall, ...checks])`: earliest candidate resolution,
earlier candidate winning ties.  Candidate rejections never win: they
occur strictly after the overall deadline. -/
def raceWinner : List (String × List Attempt) → Option (String × Nat)
  | [] => none
  | (u, l) :: rest =>
      match resolveTime l, raceWinner rest with
      | some t, some (u2, t2) => if t ≤ t2 then some (u, t) else some (u2, t2)
      | some t, none => some (u, t)
      | none, w => w

/-- The readiness phase of `start`: the race's winner if it beats the
overall timer, else `process.exit(1)`. -/
def startRace (cands : List (String × List Attempt)) : Except Nat String :=
  match raceWinner cands with
  | some (u, t) => if t < TIMEOUT_MS then .ok u else .error 1
  | none => .error 1

theorem waitPoll_setStatuses (f : Nat → Nat) (timeoutMs : Nat) :
    ∀ (l : List Attempt) (e : Nat),
      waitPoll timeoutMs e (setStatuses f l) = waitPoll timeoutMs e l := by
  intro l
  induction l with
  | nil => intro e; rfl
  | cons a rest ih =>
      intro e
      cases a with
      | response d s => rfl
      | connError d =>
          simp only [setStatuses, List.map_cons, waitPoll]
          by_cases hgt : e + d > timeoutMs
          · rw [if_pos hgt, if_pos hgt]
          · rw [if_neg hgt, if_neg hgt]
            exact ih (e + d + POLL_INTERVAL)

theorem waitPoll_rejected_after_deadline (timeoutMs : Nat) :
    ∀ (l : List Attempt) (e t : Nat),
      waitPoll timeoutMs e l = .rejected t → t > timeoutMs := by
  intro l
  induction l with
  | nil => intro e t h; exact absurd h (by simp [waitPoll])
  | cons a rest ih =>
      intro e t h
      cases a with
      | response d s => exact absurd h (by simp [waitPoll])
      | connError d =>
          simp only [waitPoll] at h
          by_cases hgt : e + d > timeoutMs
          · rw [if_pos hgt] at h
            injection h with h
            omega
          · rw [if_neg hgt] at h
            exact ih _ t h

theorem waitPoll_no_response_no_resolve (timeoutMs : Nat) :
    ∀ (l : List Attempt), (∀ a ∈ l, isConnErrorA a = true) →
      ∀ (e t : Nat), waitPoll timeoutMs e l ≠ .resolved t := by
  intro l
  induction l with
  | nil => intro _ e t h; simp [waitPoll] at h
  | cons a rest ih =>
      intro hall e t h
      cases a with
      | response d s =>
          have := hall _ (List.mem_cons_self _ _)
          simp [isConnErrorA] at this
      | connError d =>
          simp only [waitPoll] at h
          by_cases hgt : e + d > timeoutMs
          · rw [if_pos hgt] at h; exact absurd h (by simp)
          · rw [if_neg hgt] at h
            exact ih (fun x hx => hall x (List.mem_cons_of_mem _ hx)) _ t h

theorem waitPoll_resolved_first_response (timeoutMs : Nat) :
    ∀ (l : List Attempt) (e t : Nat), waitPoll timeoutMs e l = .resolved t →
      ∃ pre d s rest, l = pre ++ .response d s :: rest ∧
        (∀ a ∈ pre, isConnErrorA a = true) := by
  intro l
  induction l with
  | nil => intro e t h; simp [waitPoll] at h
  | cons a rest ih =>
      intro e t h
      cases a with
      | response d s =>
          exact ⟨[], d, s, rest, rfl, by intro a ha; simp at ha⟩
      | connError d =>
          simp only [waitPoll] at h
          by_cases hgt : e + d > timeoutMs
          · rw [if_pos hgt] at h; exact absurd h (by simp)
          · rw [if_neg hgt] at h
            obtain ⟨pre, d2, s2, rest2, heq, hpre⟩ := ih _ t h
            refine ⟨.connError d :: pre, d2, s2, rest2, by rw [heq]; rfl, ?_⟩
            intro a ha
            rcases List.mem_cons.mp ha with h2 | h2
            · rw [h2]; rfl
            · exact hpre a h2

theorem raceWinner_none_all :
    ∀ (cands : List (String × List Attempt)), raceWinner cands = none →
      ∀ u l, (u, l) ∈ cands → resolveTime l = none := by
  intro cands
  induction cands with
  | nil => intro _ u l hm; simp at hm
  | cons hd rest ih =>
      obtain ⟨u0, l0⟩ := hd
      intro h u l hm
      simp only [raceWinner] at h
      cases hr0 : resolveTime l0 with
      | some t0 =>
          rw [hr0] at h
          cases hw : raceWinner rest with
          | some w =>
              obtain ⟨u2, t2⟩ := w
              rw [hw] at h
              dsimp only at h
              exfalso
              by_cases hle : t0 ≤ t2
              · rw [if_pos hle] at h; exact absurd h (by simp)
              · rw [if_neg hle] at h; exact absurd h (by simp)
          | none => rw [hw] at h; exact absurd h (by simp)
      | none =>
          rw [hr0] at h
          dsimp only at h
          rcases List.mem_cons.mp hm with he | hm2
          · injection he with he1 he2
            subst he2
            exact hr0
          · exact ih h u l hm2

theorem raceWinner_minimal :
    ∀ (cands : List (String × List Attempt)) (u : String) (t : Nat),
      raceWinner cands = some (u, t) →
      (∃ l, (u, l) ∈ cands ∧ resolveTime l = some t) ∧
      (∀ u2 l2, (u2, l2) ∈ cands → ∀ t2, resolveTime l2 = some t2 → t ≤ t2) := by
  intro cands
  induction cands with
  | nil => intro u t h; simp [raceWinner] at h
  | cons hd rest ih =>
      obtain ⟨u0, l0⟩ := hd
      intro u t h
      simp only [raceWinner] at h
      cases hr0 : resolveTime l0 with
      | some t0 =>
          rw [hr0] at h
          cases hw : raceWinner rest with
          | some w =>
              obtain ⟨u2, t2⟩ := w
              rw [hw] at h
              dsimp only at h
              obtain ⟨⟨l2, hmem2, hrt2⟩, hmin2⟩ := ih u2 t2 hw
              by_cases hle : t0 ≤ t2
              · rw [if_pos hle] at h
                injection h with h
                injection h with h1 h2
                subst h1; subst h2
                refine ⟨⟨l0, List.mem_cons_self _ _, hr0⟩, ?_⟩
                intro u3 l3 hmem3 t3 hrt3
                rcases List.mem_cons.mp hmem3 with he | hm
                · injection he with he1 he2
                  subst he2
                  rw [hrt3] at hr0
                  injection hr0 with hr0
                  omega
                · have := hmin2 u3 l3 hm t3 hrt3
                  omega
              · rw [if_neg hle] at h
                injection h with h
                injection h with h1 h2
                subst h1; subst h2
                refine ⟨⟨l2, List.mem_cons_of_mem _ hmem2, hrt2⟩, ?_⟩
                intro u3 l3 hmem3 t3 hrt3
                rcases List.mem_cons.mp hmem3 with he | hm
                · injection he with he1 he2
                  subst he2
                  rw [hrt3] at hr0
                  injection hr0 with hr0
                  omega
                · exact hmin2 u3 l3 hm t3 hrt3
          | none =>
              rw [hw] at h
              dsimp only at h
              injection h with h
              injection h with h1 h2
              subst h1; subst h2
              refine ⟨⟨l0, List.mem_cons_self _ _, hr0⟩, ?_⟩
              intro u3 l3 hmem3 t3 hrt3
              rcases List.mem_cons.mp hmem3 with he | hm
              · injection he with he1 he2
                subst he2
                rw [hrt3] at hr0
                injection hr0 with hr0
                omega
              · have := raceWinner_none_all rest hw u3 l3 hm
                rw [hrt3] at this
                exact absurd this (by simp)
      | none =>
          rw [hr0] at h
          dsimp only at h
          obtain ⟨⟨l2, hmem2, hrt2⟩, hmin2⟩ := ih u t h
          refine ⟨⟨l2, List.mem_cons_of_mem _ hmem2, hrt2⟩, ?_⟩
          intro u3 l3 hmem3 t3 hrt3
          rcases List.mem_cons.mp hmem3 with he | hm
          · injection he with he1 he2
            subst he2
            rw [hrt3] at hr0
            exact absurd hr0 (by simp)
          · exact hmin2 u3 l3 hm t3 hrt3

theorem raceWinner_exists :
    ∀ (cands : List (String × List Attempt)) (u : String) (l : List Attempt)
      (t : Nat), (u, l) ∈ cands → resolveTime l = some t →
      ∃ u2 t2, raceWinner cands = some (u2, t2) ∧ t2 ≤ t := by
  intro cands
  induction cands with
  | nil => intro u l t hm _; simp at hm
  | cons hd rest ih =>
      obtain ⟨u0, l0⟩ := hd
      intro u l t hm hrt
      simp only [raceWinner]
      cases hr0 : resolveTime l0 with
      | some t0 =>
          cases hw : raceWinner rest with
          | some w =>
              obtain ⟨u2, t2⟩ := w
              dsimp only
              rcases List.mem_cons.mp hm with he | hm2
              · injection he with he1 he2
                subst he2
                rw [hrt] at hr0
                injection hr0 with hr0
                subst hr0
                by_cases hle : t ≤ t2
                · rw [if_pos hle]; exact ⟨u0, t, rfl, le_rfl⟩
                · rw [if_neg hle]; exact ⟨u2, t2, rfl, by omega⟩
              · obtain ⟨u2', t2', hw', hle2⟩ := ih u l t hm2 hrt
                rw [hw] at hw'
                injection hw' with hw'
                injection hw' with h1 h2
                subst h1; subst h2
                by_cases hle : t0 ≤ t2
                · rw [if_pos hle]; exact ⟨u0, t0, rfl, by omega⟩
                · rw [if_neg hle]; exact ⟨u2, t2, rfl, hle2⟩
          | none =>
              dsimp only
              rcases List.mem_cons.mp hm with he | hm2
              · injection he with he1 he2
                subst he2
                rw [hrt] at hr0
                injection hr0 with hr0
                subst hr0
                exact ⟨u0, t, rfl, le_rfl⟩
              · obtain ⟨u2', t2', hw', _⟩ := ih u l t hm2 hrt
                rw [hw] at hw'
                exact absurd hw' (by simp)
      | none =>
          dsimp only
          rcases List.mem_cons.mp hm with he | hm2
          · injection he with he1 he2
            subst he2
            rw [hrt] at hr0
            exact absurd hr0 (by simp)
          · exact ih u l t hm2 hrt

theorem resolveTime_none_of_conn (l : List Attempt)
    (h : ∀ a ∈ l, isConnErrorA a = true) : resolveTime l = none := by
  unfold resolveTime
  cases hx : waitPoll TIMEOUT_MS 0 l with
  | resolved t =>
      exact absurd hx (waitPoll_no_response_no_resolve TIMEOUT_MS l h 0 t)
  | rejected t => rfl
  | pending => rfl

theorem raceWinner_none_of_all :
    ∀ (cands : List (String × List Attempt)),
      (∀ u l, (u, l) ∈ cands → resolveTime l = none) →
      raceWinner cands = none := by
  intro cands
  induction cands with
  | nil => intro _; rfl
  | cons hd rest ih =>
      obtain ⟨u0, l0⟩ := hd
      intro h
      simp only [raceWinner]
      rw [h u0 l0 (List.mem_cons_self _ _)]
      dsimp only
      exact ih (fun u l hm => h u l (List.mem_cons_of_mem _ hm))

/-- Claim C5: the readiness wait resolves on any HTTP response
independently of its status code (only connection failures count as
not-ready), rejects only strictly after the overall 120 s deadline; the
race over candidates resolves with the candidate that responded first
when one responds in time, and when no candidate ever responds the
caller exits with code 1 without retrying. -/
theorem claim_C5_readiness_any_response (cands : List (String × List Attempt))
    (f : Nat → Nat) :
    (∀ (l : List Attempt) (e : Nat),
        waitPoll TIMEOUT_MS e (setStatuses f l) = waitPoll TIMEOUT_MS e l) ∧
    (∀ (l : List Attempt) (e t : Nat),
        waitPoll TIMEOUT_MS e l = .rejected t → t > TIMEOUT_MS) ∧
    (∀ l : List Attempt, (∀ a ∈ l, isConnErrorA a = true) →
        ∀ e t, waitPoll TIMEOUT_MS e l ≠ .resolved t) ∧
    ((∀ p ∈ cands, ∀ a ∈ p.2, isConnErrorA a = true) →
        startRace cands = .error 1) ∧
    (∀ u, startRace cands = .ok u →
        ∃ l t, (u, l) ∈ cands ∧ resolveTime l = some t ∧ t < TIMEOUT_MS ∧
          (∀ u2 l2, (u2, l2) ∈ cands → ∀ t2, resolveTime l2 = some t2 → t ≤ t2)) ∧
    (∀ u l t, (u, l) ∈ cands → resolveTime l = some t → t < TIMEOUT_MS →
        ∃ w, startRace cands = .ok w) := by
  refine ⟨waitPoll_setStatuses f TIMEOUT_MS,
          waitPoll_rejected_after_deadline TIMEOUT_MS,
          waitPoll_no_response_no_resolve TIMEOUT_MS, ?_, ?_, ?_⟩
  · intro hall
    have hnone : raceWinner cands = none := by
      refine raceWinner_none_of_all cands ?_
      intro u l hm
      exact resolveTime_none_of_conn l (hall (u, l) hm)
    simp [startRace, hnone]
  · intro u hok
    unfold startRace at hok
    cases hw : raceWinner cands with
    | some w =>
        obtain ⟨u2, t2⟩ := w
        rw [hw] at hok
        dsimp only at hok
        by_cases hlt : t2 < TIMEOUT_MS
        · rw [if_pos hlt] at hok
          injection hok with hok
          subst hok
          obtain ⟨⟨l2, hmem2, hrt2⟩, hmin⟩ := raceWinner_minimal cands u2 t2 hw
          exact ⟨l2, t2, hmem2, hrt2, hlt, hmin⟩
        · rw [if_neg hlt] at hok
          exact absurd hok (by simp)
    | none =>
        rw [hw] at hok
        exact absurd hok (by simp)
  · intro u l t hm hrt hlt
    obtain ⟨u2, t2, hw, hle⟩ := raceWinner_exists cands u l t hm hrt
    refine ⟨u2, ?_⟩
    simp [startRace, hw]
    omega

theorem claim_C5_readiness_any_response_witness :
    ∃ w, startRace [("http://localhost:8081",
        [Attempt.connError 100, Attempt.response 50 500])] = .ok w :=
  (claim_C5_readiness_any_response
      [("http://localhost:8081", [Attempt.connError 100, Attempt.response 50 500])]
      id).2.2.2.2.2
    "http://localhost:8081" [Attempt.connError 100, Attempt.response 50 500] 650
    (List.mem_cons_self _ _) (by decide) (by decide)

/-! ### Post-export HTML transform (`pack`)

The transform has two textual steps applied in order:

1. if `/\<base[^>]*href=/` does not match, insert `"\n  <base href=\"./\">"`
   right after the first `"<head>"` (when one exists);
2. `html.replace(/(\b(?:src|href)\s*=\s*['"])\//gi, '$1./')` — insert a
   `.` before each `/` that immediately follows the opening quote of a
   `src`/`href` attribute (case-insensitive, `\b`-anchored).

Strings are modeled as `List Char`; `\w` is `[A-Za-z0-9_]`, `\s` the
ASCII whitespace class. -/

def jsWordChar (c : Char) : Bool := c.isAlphanum || c = '_'

def jsWsChar (c : Char) : Bool :=
  c = ' ' || c = '\t' || c = '\n' || c = '\r' || c = '\x0b' || c = '\x0c'

def isQuoteChar (c : Char) : Bool := c = '\'' || c = '"'

/-- Case-insensitive keyword consumption: `l` starts with `kw` (given in
lowercase); returns the consumed source characters and the rest. -/
def dropKw : List Char → List Char → Option (List Char × List Char)
  | [], l => some ([], l)
  | _ :: _, [] => none
  | k :: ks, c :: cs =>
      if c.toLower = k then (dropKw ks cs).map (fun p => (c :: p.1, p.2))
      else none

/-- Greedy whitespace span. -/
def spanWs : List Char → List Char × List Char
  | [] => ([], [])
  | c :: cs =>
      if jsWsChar c then
        let p := spanWs cs
        (c :: p.1, p.2)
      else ([], c :: cs)

/-- Try to match one keyword alternative followed by
`\s*=\s*['"]` and a literal `/` at the head of `l`; on success returns
the matched characters up to and including the quote, and the rest
after the `/`. -/
def kwTryAttr (kw l : List Char) : Option (List Char × List Char) :=
  match dropKw kw l with
  | none => none
  | some (k1, r1) =>
      let w1 := (spanWs r1).1
      match (spanWs r1).2 with
      | [] => none
      | c2 :: r2 =>
          if c2 = '=' then
            let w2 := (spanWs r2).1
            match (spanWs r2).2 with
            | [] => none
            | q :: rest3 =>
                if isQuoteChar q then
                  match rest3 with
                  | [] => none
                  | c3 :: r3 =>
                      if c3 = '/' then some (k1 ++ w1 ++ '=' :: w2 ++ [q], r3)
                      else none
                else none
          else none

/-- The full alternation `(?:src|href)\s*=\s*['"]\/` (case-insensitive
keyword, tried in regex order). -/
def tryAttrSlash (l : List Char) : Option (List Char × List Char) :=
  match kwTryAttr ['s', 'r', 'c'] l with
  | some p => some p
  | none => kwTryAttr ['h', 'r', 'e', 'f'] l

/-- The anchor `\b` before the keyword: start of input or a non-word predecessor. -/
def boundaryOk : Option Char → Bool
  | none => true
  | some p => !jsWordChar p

theorem dropKw_decomp :
    ∀ (kw l k1 r1 : List Char), dropKw kw l = some (k1, r1) →
      l = k1 ++ r1 ∧ k1.map Char.toLower = kw := by
  intro kw
  induction kw with
  | nil =>
      intro l k1 r1 h
      simp only [dropKw] at h
      injection h with h
      injection h with h1 h2
      subst h1; subst h2
      exact ⟨rfl, rfl⟩
  | cons k ks ih =>
      intro l k1 r1 h
      cases l with
      | nil => simp [dropKw] at h
      | cons c cs =>
          simp only [dropKw] at h
          by_cases hc : c.toLower = k
          · rw [if_pos hc] at h
            cases hd : dropKw ks cs with
            | none => rw [hd] at h; simp at h
            | some p =>
                obtain ⟨k1', r1'⟩ := p
                rw [hd] at h
                simp only [Option.map] at h
                injection h with h
                injection h with h1 h2
                subst h2
                obtain ⟨he, hm⟩ := ih cs k1' r1' hd
                subst he
                rw [← h1]
                exact ⟨rfl, by simp [hm, hc]⟩
          · rw [if_neg hc] at h
            exact absurd h (by simp)

theorem spanWs_decomp :
    ∀ (l : List Char), l = (spanWs l).1 ++ (spanWs l).2 ∧
      (∀ c ∈ (spanWs l).1, jsWsChar c = true) := by
  intro l
  induction l with
  | nil => exact ⟨rfl, by intro c hc; simp [spanWs] at hc⟩
  | cons c cs ih =>
      by_cases hws : jsWsChar c = true
      · constructor
        · simp only [spanWs, if_pos hws]
          exact congrArg (c :: ·) ih.1
        · intro x hx
          simp only [spanWs, if_pos hws] at hx
          rcases List.mem_cons.mp hx with he | hm
          · rw [he]; exact hws
          · exact ih.2 x hm
      · constructor
        · simp [spanWs, hws]
        · intro x hx
          simp [spanWs, hws] at hx

/-- Shape of the text matched by the attribute pattern (up to and
including the opening quote). -/
def AttrShape (m : List Char) : Prop :=
  ∃ k1 w1 w2 q, m = k1 ++ w1 ++ '=' :: w2 ++ [q] ∧
    (k1.map Char.toLower = ['s', 'r', 'c'] ∨
     k1.map Char.toLower = ['h', 'r', 'e', 'f']) ∧
    (∀ c ∈ w1, jsWsChar c = true) ∧ (∀ c ∈ w2, jsWsChar c = true) ∧
    isQuoteChar q = true

theorem dropKw_of_lower (k1 : List Char) :
    ∀ z : List Char, dropKw (k1.map Char.toLower) (k1 ++ z) = some (k1, z) := by
  induction k1 with
  | nil => intro z; rfl
  | cons a k' ih =>
      intro z
      simp [dropKw, ih z]

theorem spanWs_exact (w : List Char) (hw : ∀ c ∈ w, jsWsChar c = true) :
    ∀ z : List Char, (∀ c0 zs, z = c0 :: zs → jsWsChar c0 = false) →
      spanWs (w ++ z) = (w, z) := by
  induction w with
  | nil =>
      intro z hz
      cases z with
      | nil => rfl
      | cons c0 zs =>
          simp only [List.nil_append, spanWs]
          rw [if_neg (by rw [hz c0 zs rfl]; simp)]
  | cons c w' ih =>
      intro z hz
      simp [spanWs, hw c (List.mem_cons_self _ _),
        ih (fun x hx => hw x (List.mem_cons_of_mem _ hx)) z hz]

theorem kwTryAttr_decomp (kw l m r : List Char)
    (h : kwTryAttr kw l = some (m, r)) :
    l = m ++ '/' :: r ∧
    ∃ k1 w1 w2 q, m = k1 ++ w1 ++ '=' :: w2 ++ [q] ∧
      k1.map Char.toLower = kw ∧
      (∀ c ∈ w1, jsWsChar c = true) ∧ (∀ c ∈ w2, jsWsChar c = true) ∧
      isQuoteChar q = true := by
  unfold kwTryAttr at h
  cases hd : dropKw kw l with
  | none => rw [hd] at h; simp at h
  | some p =>
      obtain ⟨k1, r1⟩ := p
      rw [hd] at h
      dsimp only at h
      obtain ⟨hle, hkw⟩ := dropKw_decomp kw l k1 r1 hd
      cases hw1 : (spanWs r1).2 with
      | nil => rw [hw1] at h; simp at h
      | cons c2 r2 =>
          rw [hw1] at h
          dsimp only at h
          by_cases hc2 : c2 = '='
          · rw [if_pos hc2] at h
            subst hc2
            cases hw2 : (spanWs r2).2 with
            | nil => rw [hw2] at h; simp at h
            | cons q rest3 =>
                rw [hw2] at h
                dsimp only at h
                by_cases hq : isQuoteChar q = true
                · rw [if_pos hq] at h
                  cases rest3 with
                  | nil => simp at h
                  | cons c3 r3 =>
                      dsimp only at h
                      by_cases hc3 : c3 = '/'
                      · rw [if_pos hc3] at h
                        subst hc3
                        injection h with h
                        injection h with h1 h2
                        subst h2
                        have e1 := (spanWs_decomp r1).1
                        have e2 := (spanWs_decomp r2).1
                        rw [hw1] at e1
                        rw [hw2] at e2
                        constructor
                        · rw [hle, e1, e2, ← h1]
                          simp
                        · exact ⟨k1, (spanWs r1).1, (spanWs r2).1, q,
                            h1.symm, hkw, (spanWs_decomp r1).2,
                            (spanWs_decomp r2).2, hq⟩
                      · rw [if_neg hc3] at h
                        simp at h
                · rw [if_neg hq] at h
                  simp at h
          · rw [if_neg hc2] at h
            simp at h

theorem tryAttrSlash_decomp (l m r : List Char)
    (h : tryAttrSlash l = some (m, r)) :
    l = m ++ '/' :: r ∧ AttrShape m := by
  unfold tryAttrSlash at h
  cases hs : kwTryAttr ['s', 'r', 'c'] l with
  | some p =>
      obtain ⟨m0, r0⟩ := p
      rw [hs] at h
      injection h with h
      injection h with h1 h2
      subst h1; subst h2
      obtain ⟨he, k1, w1, w2, q, hm, hkw, hw1, hw2, hq⟩ :=
        kwTryAttr_decomp _ l m0 r0 hs
      exact ⟨he, k1, w1, w2, q, hm, Or.inl hkw, hw1, hw2, hq⟩
  | none =>
      rw [hs] at h
      dsimp only at h
      obtain ⟨he, k1, w1, w2, q, hm, hkw, hw1, hw2, hq⟩ :=
        kwTryAttr_decomp _ l m r h
      exact ⟨he, k1, w1, w2, q, hm, Or.inr hkw, hw1, hw2, hq⟩

theorem jsWsChar_cases (c : Char) (h : jsWsChar c = true) :
    c = ' ' ∨ c = '\t' ∨ c = '\n' ∨ c = '\r' ∨ c = '\x0b' ∨ c = '\x0c' := by
  simp [jsWsChar] at h
  rcases h with h | h | h | h | h | h <;> tauto

theorem isQuoteChar_cases (c : Char) (h : isQuoteChar c = true) :
    c = '\'' ∨ c = '"' := by
  simp [isQuoteChar] at h
  rcases h with h | h <;> tauto

theorem jsWsChar_facts (c : Char) (h : jsWsChar c = true) :
    c.toLower ≠ 's' ∧ c.toLower ≠ 'h' ∧ c ≠ '.' := by
  rcases jsWsChar_cases c h with h | h | h | h | h | h <;> subst h <;>
    refine ⟨by decide, by decide, by decide⟩

theorem isQuoteChar_facts (c : Char) (h : isQuoteChar c = true) :
    c.toLower ≠ 's' ∧ c.toLower ≠ 'h' ∧ c ≠ '.' ∧ jsWsChar c = false := by
  rcases isQuoteChar_cases c h with h | h <;> subst h <;>
    refine ⟨by decide, by decide, by decide, by decide⟩

theorem map_lower_src (k1 : List Char)
    (h : k1.map Char.toLower = ['s', 'r', 'c']) :
    ∃ a b c, k1 = [a, b, c] ∧ a.toLower = 's' ∧ b.toLower = 'r' ∧
      c.toLower = 'c' := by
  cases k1 with
  | nil => simp at h
  | cons a t1 =>
      cases t1 with
      | nil => simp at h
      | cons b t2 =>
          cases t2 with
          | nil => simp at h
          | cons c t3 =>
              cases t3 with
              | nil =>
                  simp at h
                  exact ⟨a, b, c, rfl, h.1, h.2.1, h.2.2⟩
              | cons d t4 => simp at h

theorem map_lower_href (k1 : List Char)
    (h : k1.map Char.toLower = ['h', 'r', 'e', 'f']) :
    ∃ a b c d, k1 = [a, b, c, d] ∧ a.toLower = 'h' ∧ b.toLower = 'r' ∧
      c.toLower = 'e' ∧ d.toLower = 'f' := by
  cases k1 with
  | nil => simp at h
  | cons a t1 =>
      cases t1 with
      | nil => simp at h
      | cons b t2 =>
          cases t2 with
          | nil => simp at h
          | cons c t3 =>
              cases t3 with
              | nil => simp at h
              | cons d t4 =>
                  cases t4 with
                  | nil =>
                      simp at h
                      exact ⟨a, b, c, d, rfl, h.1, h.2.1, h.2.2.1, h.2.2.2⟩
                  | cons e t5 => simp at h

theorem kwTryAttr_none_of_head (k : Char) (ks : List Char) (c : Char)
    (cs : List Char) (h : ¬c.toLower = k) :
    kwTryAttr (k :: ks) (c :: cs) = none := by
  unfold kwTryAttr
  have : dropKw (k :: ks) (c :: cs) = none := by
    simp [dropKw, h]
  rw [this]

theorem tryAttrSlash_none_of_head (c : Char) (cs : List Char)
    (hs : ¬c.toLower = 's') (hh : ¬c.toLower = 'h') :
    tryAttrSlash (c :: cs) = none := by
  unfold tryAttrSlash
  rw [kwTryAttr_none_of_head 's' _ c cs hs,
      kwTryAttr_none_of_head 'h' _ c cs hh]

theorem kwTryAttr_parse (k1 w1 w2 : List Char) (q : Char)
    (hkw : k1.map Char.toLower = ['s', 'r', 'c'] ∨
           k1.map Char.toLower = ['h', 'r', 'e', 'f'])
    (hw1 : ∀ c ∈ w1, jsWsChar c = true) (hw2 : ∀ c ∈ w2, jsWsChar c = true)
    (hq : isQuoteChar q = true) (x : Char) (rest : List Char) :
    kwTryAttr (k1.map Char.toLower)
        ((k1 ++ w1 ++ '=' :: w2 ++ [q]) ++ x :: rest)
      = if x = '/' then some (k1 ++ w1 ++ '=' :: w2 ++ [q], rest)
        else none := by
  have harr : (k1 ++ w1 ++ '=' :: w2 ++ [q]) ++ x :: rest
      = k1 ++ (w1 ++ '=' :: (w2 ++ q :: x :: rest)) := by simp
  rw [harr]
  unfold kwTryAttr
  rw [dropKw_of_lower k1 _]
  dsimp only
  rw [spanWs_exact w1 hw1 ('=' :: (w2 ++ q :: x :: rest))
    (by intro c0 zs he; injection he with he1 _; rw [← he1]; decide)]
  dsimp only
  rw [if_pos rfl]
  rw [spanWs_exact w2 hw2 (q :: x :: rest)
    (by intro c0 zs he; injection he with he1 _; rw [← he1]
        exact (isQuoteChar_facts q hq).2.2.2)]
  dsimp only
  rw [if_pos hq]

theorem tryAttrSlash_parse (m rest : List Char) (x : Char) (hsh : AttrShape m) :
    tryAttrSlash (m ++ x :: rest)
      = if x = '/' then some (m, rest) else none := by
  obtain ⟨k1, w1, w2, q, hm, hkw, hw1, hw2, hq⟩ := hsh
  subst hm
  unfold tryAttrSlash
  rcases hkw with hsrc | hhref
  · have hp := kwTryAttr_parse k1 w1 w2 q (Or.inl hsrc) hw1 hw2 hq x rest
    rw [hsrc] at hp
    by_cases hx : x = '/'
    · rw [if_pos hx] at hp
      rw [hp, if_pos hx]
    · rw [if_neg hx] at hp
      rw [hp, if_neg hx]
      dsimp only
      obtain ⟨a, b, c, hk, ha, _, _⟩ := map_lower_src k1 hsrc
      subst hk
      exact kwTryAttr_none_of_head 'h' _ a _ (by rw [ha]; decide)
  · have hp := kwTryAttr_parse k1 w1 w2 q (Or.inr hhref) hw1 hw2 hq x rest
    rw [hhref] at hp
    obtain ⟨a, b, c, d, hk, ha, _, _, _⟩ := map_lower_href k1 hhref
    have hnone : kwTryAttr ['s', 'r', 'c']
        ((k1 ++ w1 ++ '=' :: w2 ++ [q]) ++ x :: rest) = none := by
      rw [hk]
      exact kwTryAttr_none_of_head 's' _ a _ (by rw [ha]; decide)
    rw [hnone]
    dsimp only
    exact hp

theorem tryAttrSlash_rest_length (l m r : List Char)
    (h : tryAttrSlash l = some (m, r)) : r.length < l.length := by
  have hd := (tryAttrSlash_decomp l m r h).1
  rw [hd]
  simp
  omega

/-- The global scan of
`html.replace(/(\b(?:src|href)\s*=\s*['"])\//gi, '$1./')`: insert a `.`
before the `/` of every match, resume after it; `prev` is the character
before the current position (for `\b`). -/
def rewriteAttrs (prev : Option Char) (l : List Char) : List Char :=
  match l with
  | [] => []
  | c :: cs =>
      if boundaryOk prev then
        match htry : tryAttrSlash (c :: cs) with
        | some (m, r) => m ++ '.' :: '/' :: rewriteAttrs (some '/') r
        | none => c :: rewriteAttrs (some c) cs
      else c :: rewriteAttrs (some c) cs
termination_by l.length
decreasing_by
  · exact tryAttrSlash_rest_length (c :: cs) m r htry
  · simp
  · simp

theorem rewriteAttrs_nil (prev : Option Char) : rewriteAttrs prev [] = [] := by
  simp [rewriteAttrs]

theorem rewriteAttrs_cons_nob (prev : Option Char) (c : Char) (cs : List Char)
    (hb : boundaryOk prev = false) :
    rewriteAttrs prev (c :: cs) = c :: rewriteAttrs (some c) cs := by
  rw [rewriteAttrs]
  rw [if_neg (by rw [hb]; simp)]

theorem rewriteAttrs_cons_none (prev : Option Char) (c : Char) (cs : List Char)
    (hb : boundaryOk prev = true) (h : tryAttrSlash (c :: cs) = none) :
    rewriteAttrs prev (c :: cs) = c :: rewriteAttrs (some c) cs := by
  rw [rewriteAttrs]
  rw [if_pos hb]
  split
  · rename_i m r heq
    rw [h] at heq
    exact absurd heq (by simp)
  · rfl

theorem rewriteAttrs_cons_some (prev : Option Char) (c : Char) (cs m r : List Char)
    (hb : boundaryOk prev = true) (h : tryAttrSlash (c :: cs) = some (m, r)) :
    rewriteAttrs prev (c :: cs) = m ++ '.' :: '/' :: rewriteAttrs (some '/') r := by
  rw [rewriteAttrs]
  rw [if_pos hb]
  split
  · rename_i m2 r2 heq
    rw [h] at heq
    injection heq with heq
    injection heq with h1 h2
    rw [h1, h2]
  · rename_i heq
    rw [h] at heq
    exact absurd heq (by simp)

/-- A match of the attribute pattern starts right here. -/
def startsAttrMatch (prev : Option Char) (l : List Char) : Bool :=
  boundaryOk prev && (tryAttrSlash l).isSome

/-- No match of the attribute pattern starts anywhere in `l` (scanned
with `prev` before its first character). -/
def matchFreeFrom (prev : Option Char) : List Char → Prop
  | [] => True
  | c :: cs => startsAttrMatch prev (c :: cs) = false ∧ matchFreeFrom (some c) cs

theorem rewriteAttrs_of_matchFree :
    ∀ (l : List Char) (prev : Option Char), matchFreeFrom prev l →
      rewriteAttrs prev l = l := by
  intro l
  induction l with
  | nil => intro prev _; exact rewriteAttrs_nil prev
  | cons c cs ih =>
      intro prev hf
      obtain ⟨h1, h2⟩ := hf
      by_cases hb : boundaryOk prev = true
      · have hnone : tryAttrSlash (c :: cs) = none := by
          simp [startsAttrMatch, hb] at h1
          exact Option.not_isSome_iff_eq_none.mp (by simp [h1])
        rw [rewriteAttrs_cons_none prev c cs hb hnone, ih (some c) h2]
      · rw [rewriteAttrs_cons_nob prev c cs (by simpa using hb), ih (some c) h2]

theorem rewriteAttrs_divergence_aux (k : Nat) :
    ∀ (l : List Char) (prev : Option Char), l.length ≤ k →
      rewriteAttrs prev l = l ∨
      ∃ e, (rewriteAttrs prev l).take e = l.take e ∧
           (rewriteAttrs prev l).get? e = some '.' := by
  induction k with
  | zero =>
      intro l prev hk
      have : l = [] := List.eq_nil_of_length_eq_zero (Nat.le_zero.mp hk)
      subst this
      left
      exact rewriteAttrs_nil prev
  | succ k ih =>
      intro l prev hk
      cases l with
      | nil => left; exact rewriteAttrs_nil prev
      | cons c cs =>
          have step_skip : rewriteAttrs prev (c :: cs) = c :: rewriteAttrs (some c) cs →
              rewriteAttrs prev (c :: cs) = c :: cs ∨
              ∃ e, (rewriteAttrs prev (c :: cs)).take e = (c :: cs).take e ∧
                   (rewriteAttrs prev (c :: cs)).get? e = some '.' := by
            intro heq
            rcases ih cs (some c) (by simp at hk; omega) with h | ⟨e, h1, h2⟩
            · left; rw [heq, h]
            · right
              refine ⟨e + 1, ?_, ?_⟩
              · rw [heq, List.take_succ_cons, List.take_succ_cons, h1]
              · rw [heq, List.get?_cons_succ]
                exact h2
          by_cases hb : boundaryOk prev = true
          · cases htry : tryAttrSlash (c :: cs) with
            | some p =>
                obtain ⟨m, r⟩ := p
                right
                have hstep := rewriteAttrs_cons_some prev c cs m r hb htry
                have hdec := (tryAttrSlash_decomp _ m r htry).1
                refine ⟨m.length, ?_, ?_⟩
                · rw [hstep, hdec]
                  rw [List.take_left, List.take_left]
                · rw [hstep]
                  rw [List.get?_append_right (le_refl m.length)]
                  simp
            | none =>
                exact step_skip (rewriteAttrs_cons_none prev c cs hb htry)
          · exact step_skip (rewriteAttrs_cons_nob prev c cs (by simpa using hb))

theorem rewriteAttrs_divergence (l : List Char) (prev : Option Char) :
    rewriteAttrs prev l = l ∨
    ∃ e, (rewriteAttrs prev l).take e = l.take e ∧
         (rewriteAttrs prev l).get? e = some '.' :=
  rewriteAttrs_divergence_aux l.length l prev le_rfl

theorem attrShape_chars (m : List Char) (hsh : AttrShape m) :
    ∀ ch ∈ m, ch ≠ '.' := by
  obtain ⟨k1, w1, w2, q, hm, hkw, hw1, hw2, hq⟩ := hsh
  subst hm
  intro ch hch
  simp at hch
  rcases hch with hk | hw | h | h | h
  · intro hdot
    subst hdot
    have : ('.' : Char).toLower ∈ k1.map Char.toLower :=
      List.mem_map_of_mem _ hk
    rcases hkw with hkw | hkw <;> rw [hkw] at this <;>
      exact absurd this (by decide)
  · exact (jsWsChar_facts ch (hw1 ch hw)).2.2
  · rw [h]; decide
  · exact (jsWsChar_facts ch (hw2 ch h)).2.2
  · rw [h]
    exact (isQuoteChar_facts q hq).2.2.1

/-- Characters that cannot begin a keyword (`src`/`href`) match. -/
def nonKwStart (c : Char) : Bool :=
  !(c.toLower = 's') && !(c.toLower = 'h')

theorem tryAttrSlash_none_of_nonKw (c : Char) (cs : List Char)
    (h : nonKwStart c = true) : tryAttrSlash (c :: cs) = none := by
  simp [nonKwStart] at h
  exact tryAttrSlash_none_of_head c cs h.1 h.2

theorem attrShape_head_tail (m : List Char) (hsh : AttrShape m) :
    ∃ c0 mt, m = c0 :: mt ∧ (∀ ch ∈ mt, nonKwStart ch = true) := by
  obtain ⟨k1, w1, w2, q, hm, hkw, hw1, hw2, hq⟩ := hsh
  have hwsNon : ∀ ch : Char, jsWsChar ch = true → nonKwStart ch = true := by
    intro ch hch
    obtain ⟨h1, h2, _⟩ := jsWsChar_facts ch hch
    simp [nonKwStart, h1, h2]
  have hrest : ∀ ch : Char,
      (ch ∈ w1 ∨ ch = '=' ∨ ch ∈ w2 ∨ ch = q) → nonKwStart ch = true := by
    intro ch hch
    rcases hch with h | h | h | h
    · exact hwsNon ch (hw1 ch h)
    · rw [h]; decide
    · exact hwsNon ch (hw2 ch h)
    · rw [h]
      obtain ⟨h1, h2, _, _⟩ := isQuoteChar_facts q hq
      simp [nonKwStart, h1, h2]
  rcases hkw with hk | hk
  · obtain ⟨a, b, c, hke, _, hb, hc⟩ := map_lower_src k1 hk
    subst hke
    refine ⟨a, [b, c] ++ w1 ++ '=' :: w2 ++ [q], by rw [hm]; rfl, ?_⟩
    intro ch hch
    simp at hch
    rcases hch with h | h | h
    · rw [h]; simp [nonKwStart, hb]
    · rw [h]; simp [nonKwStart, hc]
    · exact hrest ch (by tauto)
  · obtain ⟨a, b, c, d, hke, _, hb, hc, hd⟩ := map_lower_href k1 hk
    subst hke
    refine ⟨a, [b, c, d] ++ w1 ++ '=' :: w2 ++ [q], by rw [hm]; rfl, ?_⟩
    intro ch hch
    simp at hch
    rcases hch with h | h | h | h
    · rw [h]; simp [nonKwStart, hb]
    · rw [h]; simp [nonKwStart, hc]
    · rw [h]; simp [nonKwStart, hd]
    · exact hrest ch (by tauto)

theorem take_eq_of_take_eq_le {α : Type} (xs ys : List α) (a b : Nat)
    (h : xs.take a = ys.take a) (hba : b ≤ a) : xs.take b = ys.take b := by
  have h1 : xs.take b = (xs.take a).take b := by
    rw [List.take_take, min_eq_left hba]
  have h2 : ys.take b = (ys.take a).take b := by
    rw [List.take_take, min_eq_left hba]
  rw [h1, h2, h]

/-- Rewriting never creates a match at a position where there was none:
the output differs from the input only by inserted `.`s, which cannot
occur in (or complete) a match. -/
theorem tryAttr_none_output (c : Char) (cs : List Char)
    (h : tryAttrSlash (c :: cs) = none) :
    tryAttrSlash (c :: rewriteAttrs (some c) cs) = none := by
  cases hx : tryAttrSlash (c :: rewriteAttrs (some c) cs) with
  | none => rfl
  | some p =>
      exfalso
      obtain ⟨m', r'⟩ := p
      obtain ⟨hdec, hsh⟩ := tryAttrSlash_decomp _ m' r' hx
      rcases rewriteAttrs_divergence cs (some c) with hdi | ⟨e, htake, hget⟩
      · rw [hdi] at hx
        rw [h] at hx
        exact absurd hx (by simp)
      · by_cases hle : m'.length ≤ e
        · have common : (c :: rewriteAttrs (some c) cs).take (e + 1)
              = (c :: cs).take (e + 1) := by
            rw [List.take_succ_cons, List.take_succ_cons, htake]
          have hlen1 : (c :: cs).take (m'.length + 1) = m' ++ ['/'] := by
            rw [← take_eq_of_take_eq_le _ _ (e + 1) (m'.length + 1) common
              (by omega)]
            rw [hdec]
            rw [List.take_append_eq_append_take]
            rw [List.take_all_of_le (by omega)]
            simp
          have hsplit : c :: cs = m' ++ '/' :: ((c :: cs).drop (m'.length + 1)) := by
            conv_lhs => rw [← List.take_append_drop (m'.length + 1) (c :: cs)]
            rw [hlen1]
            simp
          have := tryAttrSlash_parse m' ((c :: cs).drop (m'.length + 1)) '/' hsh
          rw [← hsplit] at this
          rw [h] at this
          simp at this
        · have hgetL : (c :: rewriteAttrs (some c) cs).get? (e + 1) = some '.' := by
            rw [List.get?_cons_succ]
            exact hget
          rw [hdec] at hgetL
          by_cases heq : e + 1 = m'.length
          · rw [heq] at hgetL
            rw [List.get?_append_right (le_refl m'.length)] at hgetL
            simp at hgetL
          · have hlt : e + 1 < m'.length := by omega
            rw [List.get?_append hlt] at hgetL
            have hmem : ('.' : Char) ∈ m' := List.get?_mem hgetL
            exact absurd rfl (attrShape_chars m' hsh '.' hmem)

/-- The character preceding the position right after `l` (scanning from
`prev`). -/
def prevAfter (prev : Option Char) : List Char → Option Char
  | [] => prev
  | c :: cs => prevAfter (some c) cs

theorem prevAfter_append (prev : Option Char) :
    ∀ (xs ys : List Char), prevAfter prev (xs ++ ys)
      = prevAfter (prevAfter prev xs) ys := by
  intro xs
  induction xs generalizing prev with
  | nil => intro ys; rfl
  | cons c cs ih => intro ys; exact ih (some c) ys

theorem matchFree_append_nonkw :
    ∀ (seg : List Char) (prev : Option Char) (tail : List Char),
      (∀ ch ∈ seg, nonKwStart ch = true) →
      matchFreeFrom (prevAfter prev seg) tail →
      matchFreeFrom prev (seg ++ tail) := by
  intro seg
  induction seg with
  | nil => intro prev tail _ h; exact h
  | cons c seg2 ih =>
      intro prev tail hall htail
      refine ⟨?_, ih (some c) tail
        (fun x hx => hall x (List.mem_cons_of_mem _ hx)) htail⟩
      have hnone : tryAttrSlash (c :: (seg2 ++ tail)) = none :=
        tryAttrSlash_none_of_nonKw c _ (hall c (List.mem_cons_self _ _))
      simp [startsAttrMatch, hnone]

/-- The output of the rewrite contains no match anywhere. -/
theorem matchFree_rewrite_aux (k : Nat) :
    ∀ (l : List Char) (prev : Option Char), l.length ≤ k →
      matchFreeFrom prev (rewriteAttrs prev l) := by
  induction k with
  | zero =>
      intro l prev hk
      have : l = [] := List.eq_nil_of_length_eq_zero (Nat.le_zero.mp hk)
      subst this
      rw [rewriteAttrs_nil]
      trivial
  | succ k ih =>
      intro l prev hk
      cases l with
      | nil => rw [rewriteAttrs_nil]; trivial
      | cons c cs =>
          have hszcs : cs.length ≤ k := by simp at hk; omega
          by_cases hb : boundaryOk prev = true
          · cases htry : tryAttrSlash (c :: cs) with
            | some p =>
                obtain ⟨m, r⟩ := p
                rw [rewriteAttrs_cons_some prev c cs m r hb htry]
                obtain ⟨hdec, hsh⟩ := tryAttrSlash_decomp _ m r htry
                obtain ⟨c0, mt, hm, hmt⟩ := attrShape_head_tail m hsh
                have hszr : r.length ≤ k := by
                  have := tryAttrSlash_rest_length (c :: cs) m r htry
                  simp at this hk
                  omega
                have hR := ih r (some '/') hszr
                have hglue : m ++ '.' :: '/' :: rewriteAttrs (some '/') r
                    = c0 :: ((mt ++ ['.', '/']) ++ rewriteAttrs (some '/') r) := by
                  rw [hm]
                  simp
                rw [hglue]
                refine ⟨?_, ?_⟩
                · -- no match at position 0: parsing hits the inserted `.`
                  have hparse := tryAttrSlash_parse m
                    ('/' :: rewriteAttrs (some '/') r) '.' hsh
                  rw [if_neg (by decide)] at hparse
                  have : c0 :: ((mt ++ ['.', '/']) ++ rewriteAttrs (some '/') r)
                      = m ++ '.' :: '/' :: rewriteAttrs (some '/') r := by
                    rw [hglue]
                  rw [this]
                  simp [startsAttrMatch, hparse]
                · refine matchFree_append_nonkw (mt ++ ['.', '/']) (some c0)
                    (rewriteAttrs (some '/') r) ?_ ?_
                  · intro ch hch
                    rcases List.mem_append.mp hch with hh | hh
                    · exact hmt ch hh
                    · simp at hh
                      rcases hh with hh | hh <;> rw [hh] <;> decide
                  · rw [prevAfter_append]
                    exact hR
            | none =>
                rw [rewriteAttrs_cons_none prev c cs hb htry]
                refine ⟨?_, ih cs (some c) hszcs⟩
                have := tryAttr_none_output c cs htry
                simp [startsAttrMatch, this]
          · rw [rewriteAttrs_cons_nob prev c cs (by simpa using hb)]
            refine ⟨?_, ih cs (some c) hszcs⟩
            simp [startsAttrMatch, hb]

/-- Step 2 alone is idempotent. -/
theorem rewriteAttrs_idempotent (l : List Char) (prev : Option Char) :
    rewriteAttrs prev (rewriteAttrs prev l) = rewriteAttrs prev l :=
  rewriteAttrs_of_matchFree _ prev
    (matchFree_rewrite_aux l.length l prev le_rfl)

def headTagChars : List Char := ['<', 'h', 'e', 'a', 'd', '>']

/-- The injected text `'\n  <base href="./">'`. -/
def baseTagChars : List Char :=
  ['\n', ' ', ' ', '<', 'b', 'a', 's', 'e', ' ', 'h', 'r', 'e', 'f', '=',
   '"', '.', '/', '"', '>']

def baseHrefPat : List Char := ['<', 'b', 'a', 's', 'e']

def hrefEqPat : List Char := ['h', 'r', 'e', 'f', '=']

/-- Scan of `[^>]*href=` (the part of `/\<base[^>]*href=/` after the
`<base`): look for `href=` before any `>`. -/
def seekHrefEq : List Char → Bool
  | [] => false
  | c :: cs =>
      if chStarts hrefEqPat (c :: cs) then true
      else if c = '>' then false
      else seekHrefEq cs

/-- Does `/\<base[^>]*href=/` match anywhere (case-sensitive)? -/
def hasBaseHref : List Char → Bool
  | [] => false
  | c :: cs =>
      (chStarts baseHrefPat (c :: cs) && seekHrefEq (List.drop 5 (c :: cs)))
        || hasBaseHref cs

/-- The search `html.indexOf('<head>')` + insertion right after it. -/
def insertAfterHead : List Char → Option (List Char)
  | [] => none
  | c :: cs =>
      if chStarts headTagChars (c :: cs) then
        some (headTagChars ++ baseTagChars ++ List.drop 6 (c :: cs))
      else (insertAfterHead cs).map (c :: ·)

/-- Step 1 of the post-export transform: inject the base tag if no
base-href tag matches and a `<head>` exists. -/
def injectBase (l : List Char) : List Char :=
  if hasBaseHref l then l
  else
    match insertAfterHead l with
    | some l2 => l2
    | none => l

/-- The full post-export transform applied to the exported `index.html`. -/
def transformHtml (s : String) : String :=
  String.mk (rewriteAttrs none (injectBase s.data))

/-- The relation `DotIns s t`: `t` is `s` with some `.`s inserted, each directly
before a `/` of `s`. -/
inductive DotIns : List Char → List Char → Prop where
  | nil : DotIns [] []
  | keep (c : Char) (s t : List Char) : DotIns s t → DotIns (c :: s) (c :: t)
  | ins (s t : List Char) : DotIns s t → DotIns ('/' :: s) ('.' :: '/' :: t)

theorem dotIns_append_left (m : List Char) :
    ∀ s t : List Char, DotIns s t → DotIns (m ++ s) (m ++ t) := by
  induction m with
  | nil => intro s t h; exact h
  | cons c m' ih => intro s t h; exact DotIns.keep c _ _ (ih s t h)

theorem dotIns_rewrite_aux (k : Nat) :
    ∀ (l : List Char) (prev : Option Char), l.length ≤ k →
      DotIns l (rewriteAttrs prev l) := by
  induction k with
  | zero =>
      intro l prev hk
      have : l = [] := List.eq_nil_of_length_eq_zero (Nat.le_zero.mp hk)
      subst this
      rw [rewriteAttrs_nil]
      exact DotIns.nil
  | succ k ih =>
      intro l prev hk
      cases l with
      | nil => rw [rewriteAttrs_nil]; exact DotIns.nil
      | cons c cs =>
          have hszcs : cs.length ≤ k := by simp at hk; omega
          by_cases hb : boundaryOk prev = true
          · cases htry : tryAttrSlash (c :: cs) with
            | some p =>
                obtain ⟨m, r⟩ := p
                rw [rewriteAttrs_cons_some prev c cs m r hb htry]
                have hdec := (tryAttrSlash_decomp _ m r htry).1
                have hszr : r.length ≤ k := by
                  have := tryAttrSlash_rest_length (c :: cs) m r htry
                  simp at this hk
                  omega
                rw [hdec]
                exact dotIns_append_left m _ _
                  (DotIns.ins r _ (ih r (some '/') hszr))
            | none =>
                rw [rewriteAttrs_cons_none prev c cs hb htry]
                exact DotIns.keep c _ _ (ih cs (some c) hszcs)
          · rw [rewriteAttrs_cons_nob prev c cs (by simpa using hb)]
            exact DotIns.keep c _ _ (ih cs (some c) hszcs)

theorem dotIns_rewrite (l : List Char) (prev : Option Char) :
    DotIns l (rewriteAttrs prev l) :=
  dotIns_rewrite_aux l.length l prev le_rfl

theorem dotIns_cons_inv (x : Char) (s' t : List Char) (hx : x ≠ '/')
    (h : DotIns (x :: s') t) : ∃ t', t = x :: t' ∧ DotIns s' t' := by
  cases h with
  | keep c s2 t2 hd => exact ⟨t2, rfl, hd⟩
  | ins s2 t2 hd => exact absurd rfl hx

theorem dotIns_cons_inv_rev (x : Char) (s t' : List Char) (hx : x ≠ '.')
    (h : DotIns s (x :: t')) : ∃ s', s = x :: s' ∧ DotIns s' t' := by
  cases h with
  | keep c s2 t2 hd => exact ⟨s2, rfl, hd⟩
  | ins s2 t2 hd => exact absurd rfl hx

theorem dotIns_chStarts_fwd :
    ∀ (p s t : List Char), DotIns s t → (∀ ch ∈ p, ch ≠ '/') →
      chStarts p s = true →
      chStarts p t = true ∧
        DotIns (s.drop p.length) (t.drop p.length) := by
  intro p
  induction p with
  | nil =>
      intro s t hd _ _
      exact ⟨rfl, by simpa using hd⟩
  | cons x p' ih =>
      intro s t hd hall hst
      cases s with
      | nil => simp [chStarts] at hst
      | cons c s' =>
          simp only [chStarts, Bool.and_eq_true, decide_eq_true_eq] at hst
          obtain ⟨hxc, hrest⟩ := hst
          subst hxc
          obtain ⟨t', ht, hd'⟩ := dotIns_cons_inv x s' t
            (hall x (List.mem_cons_self _ _)) hd
          subst ht
          obtain ⟨h1, h2⟩ := ih s' t' hd'
            (fun ch hch => hall ch (List.mem_cons_of_mem _ hch)) hrest
          refine ⟨?_, by simpa using h2⟩
          simp [chStarts, h1]

theorem dotIns_chStarts_rev :
    ∀ (p s t : List Char), DotIns s t → (∀ ch ∈ p, ch ≠ '.') →
      chStarts p t = true →
      chStarts p s = true ∧
        DotIns (s.drop p.length) (t.drop p.length) := by
  intro p
  induction p with
  | nil =>
      intro s t hd _ _
      exact ⟨rfl, by simpa using hd⟩
  | cons x p' ih =>
      intro s t hd hall hst
      cases t with
      | nil => simp [chStarts] at hst
      | cons c t' =>
          simp only [chStarts, Bool.and_eq_true, decide_eq_true_eq] at hst
          obtain ⟨hxc, hrest⟩ := hst
          subst hxc
          obtain ⟨s', hs, hd'⟩ := dotIns_cons_inv_rev x s t'
            (hall x (List.mem_cons_self _ _)) hd
          subst hs
          obtain ⟨h1, h2⟩ := ih s' t' hd'
            (fun ch hch => hall ch (List.mem_cons_of_mem _ hch)) hrest
          refine ⟨?_, by simpa using h2⟩
          simp [chStarts, h1]

theorem dotIns_seekHrefEq (s t : List Char) (hd : DotIns s t) :
    seekHrefEq s = true → seekHrefEq t = true := by
  induction hd with
  | nil => intro hs; exact hs
  | keep c s' t' hd' ih =>
      intro hs
      simp only [seekHrefEq] at hs ⊢
      by_cases hstart : chStarts hrefEqPat (c :: s') = true
      · obtain ⟨h1, _⟩ := dotIns_chStarts_fwd hrefEqPat (c :: s') (c :: t')
          (DotIns.keep c s' t' hd') (by decide) hstart
        rw [if_pos h1]
      · rw [if_neg hstart] at hs
        by_cases hgt : c = '>'
        · rw [if_pos hgt] at hs
          exact absurd hs (by simp)
        · rw [if_neg hgt] at hs
          by_cases hstart2 : chStarts hrefEqPat (c :: t') = true
          · rw [if_pos hstart2]
          · rw [if_neg hstart2, if_neg hgt]
            exact ih hs
  | ins s' t' hd' ih =>
      intro hs
      simp only [seekHrefEq] at hs ⊢
      rw [if_neg (by simp [chStarts, hrefEqPat]), if_neg (by decide)] at hs
      rw [if_neg (by simp [chStarts, hrefEqPat]), if_neg (by decide)]
      show seekHrefEq ('/' :: t') = true
      simp only [seekHrefEq]
      rw [if_neg (by simp [chStarts, hrefEqPat]), if_neg (by decide)]
      exact ih hs

theorem dotIns_hasBaseHref (s t : List Char) (hd : DotIns s t) :
    hasBaseHref s = true → hasBaseHref t = true := by
  induction hd with
  | nil => intro hs; exact hs
  | keep c s' t' hd' ih =>
      intro hs
      simp only [hasBaseHref, Bool.or_eq_true] at hs ⊢
      rcases hs with h1 | h2
      · left
        rw [Bool.and_eq_true] at h1
        obtain ⟨ha, hb2⟩ := h1
        obtain ⟨h1', hdrop⟩ := dotIns_chStarts_fwd baseHrefPat (c :: s') (c :: t')
          (DotIns.keep c s' t' hd') (by decide) ha
        rw [h1', dotIns_seekHrefEq _ _ (by simpa [baseHrefPat] using hdrop)
          (by simpa [baseHrefPat] using hb2)]
        rfl
      · right
        exact ih h2
  | ins s' t' hd' ih =>
      intro hs
      simp only [hasBaseHref, Bool.or_eq_true] at hs ⊢
      rcases hs with h1 | h2
      · exfalso
        rw [Bool.and_eq_true] at h1
        exact absurd h1.1 (by simp [chStarts, baseHrefPat])
      · right
        right
        exact ih h2

theorem chHasSub_nil_pat (l : List Char) : chHasSub [] l = true := by
  cases l <;> rfl

theorem dotIns_chHasSub_rev (p : List Char) (hp : ∀ ch ∈ p, ch ≠ '.') :
    ∀ s t : List Char, DotIns s t → chHasSub p t = true → chHasSub p s = true := by
  intro s t hd
  induction hd with
  | nil => intro hs; exact hs
  | keep c s' t' hd' ih =>
      intro hs
      simp only [chHasSub, Bool.or_eq_true] at hs ⊢
      rcases hs with h1 | h2
      · left
        exact (dotIns_chStarts_rev p (c :: s') (c :: t')
          (DotIns.keep c s' t' hd') hp h1).1
      · right
        exact ih h2
  | ins s' t' hd' ih =>
      intro hs
      simp only [chHasSub, Bool.or_eq_true] at hs ⊢
      rcases hs with h1 | hs2
      · cases p with
        | nil => left; rfl
        | cons x p' =>
            exfalso
            simp only [chStarts, Bool.and_eq_true, decide_eq_true_eq] at h1
            exact hp x (List.mem_cons_self _ _) h1.1
      · rcases hs2 with h1 | h2
        · left
          exact (dotIns_chStarts_rev p ('/' :: s') ('/' :: t')
            (DotIns.keep '/' s' t' hd') hp h1).1
        · right
          exact ih h2

theorem insertAfterHead_none_iff :
    ∀ l : List Char, insertAfterHead l = none ↔ chHasSub headTagChars l = false := by
  intro l
  induction l with
  | nil => simp [insertAfterHead, chHasSub, chStarts, headTagChars]
  | cons c cs ih =>
      simp only [insertAfterHead, chHasSub]
      by_cases hstart : chStarts headTagChars (c :: cs) = true
      · rw [if_pos hstart, hstart]
        simp
      · rw [if_neg hstart]
        rw [Bool.or_eq_false_iff]
        constructor
        · intro h
          refine ⟨by simpa using hstart, ?_⟩
          rw [← ih]
          exact Option.map_eq_none'.mp h
        · intro h
          rw [Option.map_eq_none']
          rw [ih]
          exact h.2

theorem hasBaseHref_suffix :
    ∀ l1 l2 : List Char, hasBaseHref l2 = true → hasBaseHref (l1 ++ l2) = true := by
  intro l1 l2 h
  induction l1 with
  | nil => exact h
  | cons c cs ih =>
      simp only [List.cons_append, hasBaseHref, Bool.or_eq_true]
      right
      exact ih

theorem hasBaseHref_baseTag (rest : List Char) :
    hasBaseHref (baseTagChars ++ rest) = true := by
  show hasBaseHref (['\n', ' ', ' '] ++
    (['<', 'b', 'a', 's', 'e', ' ', 'h', 'r', 'e', 'f', '=',
      '"', '.', '/', '"', '>'] ++ rest)) = true
  apply hasBaseHref_suffix
  rfl

theorem insertAfterHead_hasBase :
    ∀ l l2 : List Char, insertAfterHead l = some l2 → hasBaseHref l2 = true := by
  intro l
  induction l with
  | nil => intro l2 h; simp [insertAfterHead] at h
  | cons c cs ih =>
      intro l2 h
      simp only [insertAfterHead] at h
      by_cases hstart : chStarts headTagChars (c :: cs) = true
      · rw [if_pos hstart] at h
        injection h with h
        rw [← h]
        show hasBaseHref (headTagChars ++
          (baseTagChars ++ List.drop 6 (c :: cs))) = true
        apply hasBaseHref_suffix
        exact hasBaseHref_baseTag _
      · rw [if_neg hstart] at h
        cases hrec : insertAfterHead cs with
        | none => rw [hrec] at h; simp at h
        | some l3 =>
            rw [hrec] at h
            simp only [Option.map] at h
            injection h with h
            rw [← h]
            simp only [hasBaseHref, Bool.or_eq_true]
            right
            exact ih l3 hrec

/-- After one full transform, re-running the base-injection step is the
identity. -/
theorem injectBase_after_transform (l : List Char) :
    injectBase (rewriteAttrs none (injectBase l))
      = rewriteAttrs none (injectBase l) := by
  by_cases hb : hasBaseHref l = true
  · have hil : injectBase l = l := by simp [injectBase, hb]
    rw [hil]
    have hb1 : hasBaseHref (rewriteAttrs none l) = true :=
      dotIns_hasBaseHref l _ (dotIns_rewrite l none) hb
    simp [injectBase, hb1]
  · cases hins : insertAfterHead l with
    | some l2 =>
        have hil : injectBase l = l2 := by
          simp [injectBase, hb, hins]
        rw [hil]
        have hb2 : hasBaseHref l2 = true := insertAfterHead_hasBase l l2 hins
        have hb1 : hasBaseHref (rewriteAttrs none l2) = true :=
          dotIns_hasBaseHref l2 _ (dotIns_rewrite l2 none) hb2
        simp [injectBase, hb1]
    | none =>
        have hil : injectBase l = l := by
          simp [injectBase, hb, hins]
        rw [hil]
        by_cases hb1 : hasBaseHref (rewriteAttrs none l) = true
        · simp [injectBase, hb1]
        · have hnohead : chHasSub headTagChars l = false :=
            (insertAfterHead_none_iff l).mp hins
          have hnoheadT : chHasSub headTagChars (rewriteAttrs none l) = false := by
            cases hx : chHasSub headTagChars (rewriteAttrs none l) with
            | false => rfl
            | true =>
                have := dotIns_chHasSub_rev headTagChars (by decide) l
                  (rewriteAttrs none l) (dotIns_rewrite l none) hx
                rw [hnohead] at this
                exact absurd this (by simp)
          have hit : insertAfterHead (rewriteAttrs none l) = none :=
            (insertAfterHead_none_iff _).mpr hnoheadT
          simp [injectBase, hb1, hit]

/-- Claim C3: the post-export HTML transform — inject `<base href="./">`
into `<head>` when no base-href tag is present, then rewrite every
root-absolute `src`/`href` attribute value to a `./`-relative one — is
idempotent: applying it twice yields exactly the output of applying it
once; no second base tag is inserted and no already-rewritten path gains
another prefix. -/
theorem claim_C3_transform_idempotent (s : String) :
    transformHtml (transformHtml s) = transformHtml s := by
  unfold transformHtml
  have hdata : (String.mk (rewriteAttrs none (injectBase s.data))).data
      = rewriteAttrs none (injectBase s.data) := rfl
  rw [hdata, injectBase_after_transform,
    rewriteAttrs_idempotent]

end ExpoElectron
